import Mathlib

/-!
Verification of the agent turn-loop core of the Eitherway runtime
(`packages/runtime/src/agent.ts`): the read-before-write enforcer
(`injectReadBeforeWriteBlocks`), the conversation-history validator
(`validateConversationHistory`), the missing-file-reference checker
(`checkMissingFileReferences`) and the `processRequest` turn loop with its
streaming phase events.

Shallow-embedding conventions:
* A structured tool input becomes a record of exactly the fields the agent
  code reads (`path`, `needle`, `content`), a list of untouched extra fields,
  and the `_enforcerWarning` field the enforcer may add.  JS truthiness of an
  optional string field is `Option` presence together with non-emptiness.
* Message content, which the Claude API requires to be a list of blocks, is a
  sum of a block list and a non-list payload (the `typeof` tag of the latter
  is carried only for the error message).
* The model client, the tool executors and the verifier are external
  collaborators; a run is parameterized by the response the model returns on
  the n-th round-trip and by the result each tool execution produces.
-/

namespace Eitherway

/-- Message roles of the conversation history. -/
inductive Role where
  | user
  | assistant
deriving DecidableEq, Repr

/-- The fields of a tool invocation's `input` object that `agent.ts` reads,
plus a list of remaining (never inspected) fields and the `_enforcerWarning`
field that `injectReadBeforeWriteBlocks` may add. -/
structure ToolInput where
  path : Option String := none
  needle : Option String := none
  content : Option String := none
  extra : List (String × String) := []
  enforcerWarning : Option String := none
deriving DecidableEq, Repr

/-- A `tool_use` content block: `{id, name, input}`. -/
structure ToolUse where
  id : String
  name : String
  input : ToolInput
deriving DecidableEq, Repr

/-- A `tool_result` block as produced by the tool runner:
`{tool_use_id, content, is_error?, metadata?.path}`.  `is_error` is `false`
when the JS field is absent or falsy; `metadataPath` is the `metadata.path`
field when present. -/
structure ToolResult where
  tool_use_id : String
  content : String
  is_error : Bool := false
  metadataPath : Option String := none
deriving DecidableEq, Repr

/-- Content blocks of a message, covering the block types `agent.ts`
distinguishes; every other type is handled by the catch-all branches, which
behave exactly like `text`. -/
inductive Block where
  | text (s : String)
  | toolUse (tu : ToolUse)
  | serverToolUse (id : String) (name : String)
  | webSearchToolResult (toolUseId : String)
  | toolResultB (r : ToolResult)
deriving DecidableEq, Repr

/-- A message's `content` field: either a proper block list or a non-list
value (e.g. a bare string), whose `typeof` tag is carried for the error. -/
inductive MsgContent where
  | list (blocks : List Block)
  | nonList (typeName : String)
deriving DecidableEq, Repr

/-- A conversation-history message. -/
structure Message where
  role : Role
  content : MsgContent
deriving DecidableEq, Repr

/-- `Agent.READ_TOOL`. -/
def READ_TOOL : String := "either-view"

/-- `Agent.WRITE_TOOLS` (a two-element set in the source). -/
def WRITE_TOOLS : List String := ["either-line-replace", "either-write"]

/-- JS guard `typeof path === 'string' && path.length > 0` applied to
`input.path`: returns the path exactly when it is a present, non-empty
string.  The same test encodes truthiness of `input?.path`. -/
def validPath? (i : ToolInput) : Option String :=
  match i.path with
  | some p => if p = "" then none else some p
  | none => none

/-- JS truthiness test `!blk.input?.needle`: true when the `needle` field is
absent or an empty string. -/
def needleFalsy (i : ToolInput) : Bool :=
  match i.needle with
  | none => true
  | some s => s = ""

/-- The soft-warning text the enforcer writes into `_enforcerWarning`. -/
def enforcerWarningText : String :=
  "No `needle` provided; injected a read to reduce risk."

/-- The spread `blk.input = { ...blk.input, _enforcerWarning: ... }`, applied
only when the needle is missing or falsy: sets `_enforcerWarning` and leaves
every other field unchanged. -/
def annotateNeedle (i : ToolInput) : ToolInput :=
  if needleFalsy i then { i with enforcerWarning := some enforcerWarningText }
  else i

/-- The needle-annotated form of an `either-line-replace` invocation. -/
def annotateTU (tu : ToolUse) : ToolUse :=
  { tu with input := annotateNeedle tu.input }

/-- The synthetic read the enforcer injects.  The source generates the id as
`enforcer-view-${Date.now()}-${random}`; wall clock and randomness are
embedded as a per-turn counter, preserving the `enforcer-view-` id scheme
that makes injected ids distinguishable from model-issued ids. -/
def injectedRead (cnt : Nat) (p : String) : ToolUse :=
  { id := "enforcer-view-" ++ toString cnt,
    name := READ_TOOL,
    input := { path := some p } }

/-- Extract the `ToolUse` of a `tool_use` block. -/
def toolUseOf : Block → Option ToolUse
  | Block.toolUse tu => some tu
  | _ => none

/-- The `tool_use` invocations of a block list, in order (this is what
`pushAndCollect` accumulates alongside the output blocks). -/
def blockToolUses (bs : List Block) : List ToolUse :=
  bs.filterMap toolUseOf

/-- The blocks pushed (via `pushAndCollect`) for one input block, given the
current `seenReadForPath` set and fresh-id counter: an explicit read passes
through; an `either-line-replace` is needle-annotated and, when its valid
path is unread, preceded by an injected synthetic read; every other block
(including `either-write` and all non-tool blocks) passes through.  The
first component is the pushed content blocks, the second the parallel
`toolUsesCollected` contribution. -/
def enfEmit (b : Block) (seen : List String) (cnt : Nat) :
    List Block × List ToolUse :=
  match b with
  | Block.toolUse tu =>
    if tu.name = READ_TOOL then ([b], [tu])
    else if tu.name = "either-line-replace" then
      match validPath? tu.input with
      | some p =>
        if p ∈ seen then
          ([Block.toolUse (annotateTU tu)], [annotateTU tu])
        else
          ([Block.toolUse (injectedRead cnt p), Block.toolUse (annotateTU tu)],
           [injectedRead cnt p, annotateTU tu])
      | none => ([Block.toolUse (annotateTU tu)], [annotateTU tu])
    else ([b], [tu])
  | _ => ([b], [])

/-- The `seenReadForPath`/counter update for one input block: an explicit
read with a valid path adds the path; an `either-line-replace` with an
unread valid path adds it (the injected read) and bumps the counter. -/
def enfStep (sc : List String × Nat) (b : Block) : List String × Nat :=
  match b with
  | Block.toolUse tu =>
    if tu.name = READ_TOOL then
      match validPath? tu.input with
      | some p => (p :: sc.1, sc.2)
      | none => sc
    else if tu.name = "either-line-replace" then
      match validPath? tu.input with
      | some p => if p ∈ sc.1 then sc else (p :: sc.1, sc.2 + 1)
      | none => sc
    else sc
  | _ => sc

/-- The `seenReadForPath` set and counter after scanning a block prefix. -/
def enfScan (l : List Block) (seen : List String) (cnt : Nat) :
    List String × Nat :=
  l.foldl enfStep (seen, cnt)

/-- The block-processing loop of `injectReadBeforeWriteBlocks`: for each
block in order, push its `enfEmit` contribution and update the state by
`enfStep`.  It returns the output block sequence `out` and the parallel
`toolUsesCollected` list. -/
def enforceGo : List Block → List String → Nat → List Block × List ToolUse
  | [], _, _ => ([], [])
  | b :: rest, seen, cnt =>
    let e := enfEmit b seen cnt
    let sc := enfStep (seen, cnt) b
    let t := enforceGo rest sc.1 sc.2
    (e.1 ++ t.1, e.2 ++ t.2)

/-- `Agent.injectReadBeforeWriteBlocks`: the per-turn enforcer, seeded with an
empty `seenReadForPath` set.  The source's final
`filter((b) => b.type === 'tool_use')` is the identity on the collected list
and is dropped. -/
def injectReadBeforeWriteBlocks (contentBlocks : List Block) :
    List Block × List ToolUse :=
  enforceGo contentBlocks [] 0

/-- Whether a block is a read-tool invocation for path `p` (explicit or
injected): an `either-view` `tool_use` whose valid path is `p`. -/
def isReadOf (p : String) (b : Block) : Bool :=
  match b with
  | Block.toolUse tu => tu.name = READ_TOOL && validPath? tu.input == some p
  | _ => false

/-- Whether the block sequence contains a read of `p`. -/
def hasReadOf (p : String) (bs : List Block) : Bool :=
  bs.any (isReadOf p)

/-- The per-block pass-through transformation of the enforcer: an
`either-line-replace` is needle-annotated, every other block is unchanged. -/
def annotateBlock (b : Block) : Block :=
  match b with
  | Block.toolUse tu =>
    if tu.name = "either-line-replace" then Block.toolUse (annotateTU tu)
    else b
  | _ => b

/-- Whether a tool invocation carries an enforcer-generated id (the
`enforcer-view-` scheme); model-issued ids never do. -/
def isInjTU (tu : ToolUse) : Bool :=
  "enforcer-view-".data.isPrefixOf tu.id.data

/-- Whether a block carries an enforcer-generated id. -/
def isInjectedBlockRead (b : Block) : Bool :=
  match b with
  | Block.toolUse tu => isInjTU tu
  | _ => false

/-- The injected-read blocks contributed for one edit invocation given the
scan state: one synthetic read when the edit has a valid unread path,
nothing otherwise. -/
def editInjection (tu : ToolUse) (sc : List String × Nat) : List Block :=
  match validPath? tu.input with
  | some p => if p ∈ sc.1 then [] else [Block.toolUse (injectedRead sc.2 p)]
  | none => []

/-- Validation-failure kinds of `validateConversationHistory`. -/
inductive ValKind where
  | nonArrayContent
  | emptyContent
deriving DecidableEq, Repr

/-- The request-aborting validation error; it carries the offending
message's index (quoted in the thrown message). -/
structure ValErr where
  idx : Nat
  kind : ValKind
deriving DecidableEq, Repr

/-- A logged (non-fatal) warning: message `idx` has a `server_tool_use`
block with id `toolUseId` and no matching `web_search_tool_result`. -/
structure ValWarning where
  idx : Nat
  toolUseId : String
deriving DecidableEq, Repr

/-- The `server_tool_use` ids of an assistant message's blocks that have no
`web_search_tool_result` with a matching `tool_use_id` in the same message
(the inner pairing check of `validateConversationHistory`). -/
def unmatchedServerToolUses (bs : List Block) : List String :=
  let results := bs.filterMap fun b => match b with
    | Block.webSearchToolResult tid => some tid
    | _ => none
  (bs.filterMap fun b => match b with
    | Block.serverToolUse i _ => some i
    | _ => none).filter fun i => !results.contains i

/-- Per-message warning collection: pairing is only checked for assistant
messages with list content. -/
def msgWarnings (idx : Nat) (m : Message) : List ValWarning :=
  match m.role, m.content with
  | Role.assistant, MsgContent.list bs =>
    (unmatchedServerToolUses bs).map fun i => { idx := idx, toolUseId := i }
  | _, _ => []

/-- The first fatal violation a message triggers: non-list content, or empty
content unless the message is the final one and an assistant message. -/
def badMsg (total idx : Nat) (m : Message) : Option ValKind :=
  match m.content with
  | MsgContent.nonList _ => some ValKind.nonArrayContent
  | MsgContent.list bs =>
    if bs.isEmpty && !(idx = total - 1 && m.role = Role.assistant) then
      some ValKind.emptyContent
    else
      none

/-- The indexed traversal of `validateConversationHistory`: throws (returns
`.error`) at the first message violating a fatal check, and otherwise
accumulates the logged pairing warnings across all messages. -/
def validateGo (total : Nat) : Nat → List Message → Except ValErr (List ValWarning)
  | _, [] => Except.ok []
  | idx, m :: rest =>
    match badMsg total idx m with
    | some k => Except.error { idx := idx, kind := k }
    | none =>
      match validateGo total (idx + 1) rest with
      | Except.error e => Except.error e
      | Except.ok ws => Except.ok (msgWarnings idx m ++ ws)

/-- `Agent.validateConversationHistory`, run on the current history before
every model call.  `console` logging is embedded as the returned warning
list; the `throw` is the `.error` case. -/
def validateConversationHistory (msgs : List Message) :
    Except ValErr (List ValWarning) :=
  validateGo msgs.length 0 msgs

/-- All warnings of the messages, indexed from `k`. -/
def collectWarningsFrom (k : Nat) : List Message → List ValWarning
  | [] => []
  | m :: rest => msgWarnings k m ++ collectWarningsFrom (k + 1) rest

/-- All warnings of a history, message by message (what a fully successful
validation returns). -/
def collectWarnings (msgs : List Message) : List ValWarning :=
  collectWarningsFrom 0 msgs

/-- The first fatal violation of the indexed message list, mirroring the
traversal order of `validateGo` (used to state which index the thrown
error cites). -/
def firstBad (total : Nat) : Nat → List Message → Option ValErr
  | _, [] => none
  | idx, m :: rest =>
    match badMsg total idx m with
    | some k => some { idx := idx, kind := k }
    | none => firstBad total (idx + 1) rest

/-! ### Missing-file-reference checker

The three reference extractions of `checkMissingFileReferences` are the JS
regexes `<script[^>]+src=["']([^"']+)["']` and
`<link[^>]+href=["']([^"']+)["'][^>]*>` (both `/gi`) and the import-statement
regex (`/g`).  They are translated as explicit scanners with `matchAll`
semantics: leftmost match, resume after the match end, advance one character
on failure.  Greedy `[^>]+` with backtracking is realized by trying the
longest `>`-free split first; `[^"']+` needs no backtracking because the
class excludes its follower. -/

/-- Lowercasing and prefix/suffix tests over the character list (the
byte-position-based `String` primitives do not reduce in the kernel; these
list forms are extensionally the same operations). -/
def toLowerStr (s : String) : String :=
  String.mk (s.data.map Char.toLower)

def startsWithStr (s p : String) : Bool :=
  p.data.isPrefixOf s.data

def endsWithStr (s p : String) : Bool :=
  p.data.isSuffixOf s.data

/-- Single- and double-quote characters (written via code points). -/
def squote : Char := Char.ofNat 39

/-- Left and right curly brace characters (written via code points). -/
def lbraceChar : Char := Char.ofNat 123

def rbraceChar : Char := Char.ofNat 125

def isQuote (c : Char) : Bool := c = '"' || c = squote

/-- Case-insensitive literal prefix test (`pat` given in lowercase),
modelling the `/i` flag. -/
def startsWithCI (pat : String) (cs : List Char) : Bool :=
  (cs.take pat.length).map Char.toLower == pat.data

/-- Match `["']([^"']+)["']`: an opening quote, a non-empty capture of
non-quote characters, a closing quote.  Returns the capture and the
remaining input. -/
def quoteVal (cs : List Char) : Option (String × List Char) :=
  match cs with
  | [] => none
  | c :: rest =>
    if isQuote c then
      let cap := rest.takeWhile fun d => !isQuote d
      if cap.isEmpty then none
      else
        match rest.drop cap.length with
        | d :: rest2 => if isQuote d then some (String.mk cap, rest2) else none
        | [] => none
    else none

/-- Match `[^>]+src=["']([^"']+)["']` right after a `<script` literal:
try the longest `>`-free run first (greedy with backtracking), then `src=`
(case-insensitive) and a quoted value. -/
def scriptTailAt (cs : List Char) : Option (String × List Char) :=
  let maxJ := (cs.takeWhile fun c => c ≠ '>').length
  (((List.range maxJ).reverse).map fun k => k + 1).findSome? fun j =>
    let rest := cs.drop j
    if startsWithCI "src=" rest then quoteVal (rest.drop 4) else none

def findScriptsAux : Nat → List Char → List String
  | 0, _ => []
  | _, [] => []
  | fuel + 1, cs =>
    if startsWithCI "<script" cs then
      match scriptTailAt (cs.drop 7) with
      | some (cap, rest) => cap :: findScriptsAux fuel rest
      | none => findScriptsAux fuel (cs.drop 1)
    else findScriptsAux fuel (cs.drop 1)

/-- All captures of `/<script[^>]+src=["']([^"']+)["']/gi` over `s`. -/
def findScripts (s : String) : List String :=
  findScriptsAux (s.length + 1) s.data

/-- Match `<link[^>]+href=["']([^"']+)["'][^>]*>` at the start of `cs`,
returning the full matched tag (`match[0]`, later searched for
`stylesheet`), the capture, and the rest. -/
def linkAt (cs : List Char) : Option (String × String × List Char) :=
  if startsWithCI "<link" cs then
    let afterTag := cs.drop 5
    let maxJ := (afterTag.takeWhile fun c => c ≠ '>').length
    (((List.range maxJ).reverse).map fun k => k + 1).findSome? fun j =>
      let rest := afterTag.drop j
      if startsWithCI "href=" rest then
        match quoteVal (rest.drop 5) with
        | some (cap, rest2) =>
          let tailRun := rest2.takeWhile fun c => c ≠ '>'
          match rest2.drop tailRun.length with
          | c :: rest3 =>
            if c = '>' then
              some (String.mk (cs.take (cs.length - rest3.length)), cap, rest3)
            else none
          | [] => none
        | none => none
      else none
  else none

def findLinksAux : Nat → List Char → List (String × String)
  | 0, _ => []
  | _, [] => []
  | fuel + 1, cs =>
    match linkAt cs with
    | some (full, cap, rest) => (full, cap) :: findLinksAux fuel rest
    | none => findLinksAux fuel (cs.drop 1)

/-- All (full match, capture) pairs of the `<link ...>` regex over `s`. -/
def findLinks (s : String) : List (String × String) :=
  findLinksAux (s.length + 1) s.data

/-- `[\w]` of the import regex. -/
def isWordChar (c : Char) : Bool := c.isAlphanum || c = '_'

/-- One import specifier item: `\{[^}]+\}` or `[\w]+`. -/
def importItem (cs : List Char) : Option (List Char) :=
  match cs with
  | [] => none
  | c :: rest =>
    if c = lbraceChar then
      let inner := rest.takeWhile fun d => d ≠ rbraceChar
      if inner.isEmpty then none
      else
        match rest.drop inner.length with
        | d :: rest2 => if d = rbraceChar then some rest2 else none
        | [] => none
    else
      let w := cs.takeWhile isWordChar
      if w.isEmpty then none else some (cs.drop w.length)

/-- The greedy `(?:\s*,\s*(?:\{[^}]+\}|[\w]+))*` tail: each iteration is
consumed atomically (comma then item) and a failed iteration consumes
nothing, which agrees with the regex here because every following token
(`\s+from`) starts with whitespace, never a comma. -/
def importCommaItems : Nat → List Char → List Char
  | 0, cs => cs
  | fuel + 1, cs =>
    let ws := cs.takeWhile Char.isWhitespace
    match cs.drop ws.length with
    | c :: rest =>
      if c = ',' then
        let ws2 := rest.takeWhile Char.isWhitespace
        match importItem (rest.drop ws2.length) with
        | some r => importCommaItems fuel r
        | none => cs
      else cs
    | [] => cs

/-- Match the full import regex at the start of `cs`, returning the captured
module path and the rest after the match. -/
def importAt (cs : List Char) : Option (String × List Char) :=
  if ("import".data).isPrefixOf cs then
    let r0 := cs.drop 6
    let ws1 := r0.takeWhile Char.isWhitespace
    if ws1.isEmpty then none
    else
      match importItem (r0.drop ws1.length) with
      | none => none
      | some r1 =>
        let r2 := importCommaItems (r1.length + 1) r1
        let ws2 := r2.takeWhile Char.isWhitespace
        if ws2.isEmpty then none
        else
          let r3 := r2.drop ws2.length
          if ("from".data).isPrefixOf r3 then
            let r4 := r3.drop 4
            let ws3 := r4.takeWhile Char.isWhitespace
            if ws3.isEmpty then none
            else quoteVal (r4.drop ws3.length)
          else none
  else none

def findImportsAux : Nat → List Char → List String
  | 0, _ => []
  | _, [] => []
  | fuel + 1, cs =>
    match importAt cs with
    | some (cap, rest) => cap :: findImportsAux fuel rest
    | none => findImportsAux fuel (cs.drop 1)

/-- All captured module paths of the import regex over `s`. -/
def findImports (s : String) : List String :=
  findImportsAux (s.length + 1) s.data

/-- A flagged missing reference `{htmlFile, tag, attr, file}`. -/
structure MissingRef where
  htmlFile : String
  tag : String
  attr : String
  file : String
deriving DecidableEq, Repr

/-- `scriptPath.replace(/^\.?\//, '')`: strip one leading `./` or `/`. -/
def stripDotSlash (s : String) : String :=
  if startsWithStr s "./" then s.drop 2
  else if startsWithStr s "/" then s.drop 1
  else s

/-- `importPath.replace(/^\.\//, '')`: strip one leading `./` only. -/
def stripDotSlashOnly (s : String) : String :=
  if startsWithStr s "./" then s.drop 2 else s

/-- `str.includes(sub)` (case-sensitive): some suffix of `s` starts with
`sub`. -/
def containsSubstr (s sub : String) : Bool :=
  (List.range (s.length + 1)).any fun k => sub.data.isPrefixOf (s.data.drop k)

/-- Membership of a name in the write-tool pair used by the checker's
filters. -/
def isWriteTool (n : String) : Bool :=
  n = "either-write" || n = "either-line-replace"

/-- The flagged script/link references of one newly written HTML file. -/
def htmlRefsOf (createdFiles : List String) (htmlPath content : String) :
    List MissingRef :=
  ((findScripts content).filterMap fun sp =>
    let normalized := stripDotSlash sp
    if !createdFiles.contains normalized && !createdFiles.contains sp then
      some { htmlFile := htmlPath, tag := "script", attr := "src", file := sp }
    else none)
  ++ ((findLinks content).filterMap fun fl =>
    if containsSubstr fl.1 "stylesheet" then
      let normalized := stripDotSlash fl.2
      if !createdFiles.contains normalized && !createdFiles.contains fl.2 then
        some { htmlFile := htmlPath, tag := "link", attr := "href", file := fl.2 }
      else none
    else none)

/-- The candidate paths tried for one normalized import: the literal path,
extension variants and `index.*` variants. -/
def importCandidatePaths (n : String) : List String :=
  [n, n ++ ".jsx", n ++ ".tsx", n ++ ".js", n ++ ".ts",
   n ++ "/index.jsx", n ++ "/index.tsx", n ++ "/index.js", n ++ "/index.ts"]

/-- Whether an import resolves against the given created-file set: the
candidate paths and their `src/`-prefixed forms, each also tried with a
`./` or `/` prefix. -/
def importResolved (createdFiles : List String) (importPath : String) : Bool :=
  let possiblePaths := importCandidatePaths (stripDotSlashOnly importPath)
  let srcPaths := possiblePaths.map fun p => "src/" ++ p
  (possiblePaths ++ srcPaths).any fun p =>
    createdFiles.contains p || createdFiles.contains ("./" ++ p)
      || createdFiles.contains ("/" ++ p)

/-- The flagged relative imports of one newly written JS/TS/JSX/TSX file. -/
def importRefsOf (createdFiles : List String) (filePath content : String) :
    List MissingRef :=
  (findImports content).filterMap fun ip =>
    if !startsWithStr ip "." then none
    else if importResolved createdFiles ip then none
    else some { htmlFile := filePath, tag := "import", attr := "from", file := ip }

/-- Whether a path has one of the four React/JS source suffixes
(case-sensitive, as in the source). -/
def jsLikePath (p : String) : Bool :=
  endsWithStr p ".jsx" || endsWithStr p ".tsx" || endsWithStr p ".js"
    || endsWithStr p ".ts"

/-- The shared per-invocation guard of both passes: the invocation must be a
write tool whose result at the same index exists and is not an error, and
its scanned content is `input.content` for `either-write` and `null` (skip)
for `either-line-replace`. -/
def scanContent? (toolResults : List ToolResult) (i : Nat) (tu : ToolUse) :
    Option String :=
  match toolResults.get? i with
  | none => none
  | some res =>
    if res.is_error then none
    else
      match (if tu.name = "either-write" then tu.input.content else none) with
      | some c => if c = "" then none else some c
      | none => none

/-- `Agent.checkMissingFileReferences`: the HTML pass (script `src` / link
`href` references) over all write invocations targeting `.html` paths,
followed by the import pass over all write invocations targeting
`.jsx/.tsx/.js/.ts` paths, each checked against `createdFiles`. -/
def checkMissingFileReferences (toolUses : List ToolUse)
    (createdFiles : List String) (toolResults : List ToolResult) :
    List MissingRef :=
  let htmlPart := (toolUses.enum.map fun itu =>
    let tu := itu.2
    if isWriteTool tu.name then
      match tu.input.path with
      | some p =>
        if endsWithStr (toLowerStr p) ".html" && p ≠ "" then
          match scanContent? toolResults itu.1 tu with
          | some c => htmlRefsOf createdFiles p c
          | none => []
        else []
      | none => []
    else []).flatten
  let reactPart := (toolUses.enum.map fun itu =>
    let tu := itu.2
    if isWriteTool tu.name then
      match tu.input.path with
      | some p =>
        if jsLikePath p && p ≠ "" then
          match scanContent? toolResults itu.1 tu with
          | some c => importRefsOf createdFiles p c
          | none => []
        else []
      | none => []
    else []).flatten
  htmlPart ++ reactPart

/-! ### The `processRequest` turn loop

Streaming callbacks are embedded as an event trace (`Ev`); all callbacks are
taken as present (the claims are about the events delivered to them).
`setTimeout` pacing delays, `console` logging and the transcript recorder (an
external leaf per the spec) have no observable effect on the embedded state
and are dropped.  The model client and tool runner are external
collaborators: a run is parameterized by the response returned by the n-th
`sendMessage` call and by the `ToolResult` each execution produces.  The
`missingLog` field is proof instrumentation recording each turn's
missing-reference list; no other field reads it. -/

/-- The streaming phases (`StreamingPhase` in the source). -/
inductive StreamingPhase where
  | thinking
  | reasoning
  | codeWriting
  | building
  | completed
deriving DecidableEq, Repr

/-- The four progressive file-operation states of `onFileOperation`. -/
inductive FileOpState where
  | creating
  | editing
  | created
  | edited
deriving DecidableEq, Repr

/-- The internal create/edit classification of a tracked file operation. -/
inductive FileOp where
  | create
  | edit
deriving DecidableEq, Repr

/-- The `onFileOperation` state emitted before execution. -/
def startState : FileOp → FileOpState
  | FileOp.create => FileOpState.creating
  | FileOp.edit => FileOpState.editing

/-- The `onFileOperation` state emitted after execution. -/
def finState : FileOp → FileOpState
  | FileOp.create => FileOpState.created
  | FileOp.edit => FileOpState.edited

/-- One delivered streaming callback, in emission order. -/
inductive Ev where
  | phase (p : StreamingPhase)
  | delta (s : String)
  | reasoningDelta (s : String)
  | thinkingComplete
  | fileOp (op : FileOpState) (path : String)
  | toolStart (name id : String)
  | toolEnd (name id : String)
  | complete
deriving DecidableEq, Repr

/-- One model response: content blocks plus the (opaque) stop reason.  Token
usage is not modelled (it only feeds the `onComplete` payload). -/
structure Resp where
  content : List Block := []
  stopReason : Option String := none
deriving DecidableEq, Repr

/-- The parameters of one `processRequest` run.

`maxTurns` and `chunkSize` stand for `MAX_AGENT_TURNS` and
`REASONING_STREAM_CHUNK_SIZE`.  Modelled from the spec: `constants.js` is not
part of the sources; the spec fixes only that the turn bound is "a fixed
maximum number of turns" and that reasoning text is flushed in bounded-size
chunks, so both are arbitrary constants here.  `responses n` is the model
client's answer to the n-th round-trip (the model is a black box, so
indexing by round-trip number loses no generality), `execTool` the tool
runner's per-invocation result, and `verifyStr`/`metricsStr` the opaque
verifier and metrics summaries. -/
structure AgentCfg where
  maxTurns : Nat
  chunkSize : Nat
  responses : Nat → Resp
  execTool : ToolUse → ToolResult
  dryRun : Bool := false
  initialHistory : List Message := []
  verifyStr : String := ""
  metricsStr : String := ""

/-- The mutable request state of `processRequest` (its local variables and
the agent's `conversationHistory`), plus the event trace. -/
structure St where
  history : List Message := []
  turnCount : Nat := 0
  sendCount : Nat := 0
  finalResponse : String := ""
  changedFiles : List String := []
  hasExecutedTools : Bool := false
  justExecutedTools : Bool := false
  thinkingBuffer : String := ""
  isInThinkingPhase : Bool := false
  summaryBuffer : String := ""
  isInSummaryPhase : Bool := false
  fileOps : List String := []
  filesCreated : List String := []
  events : List Ev := []
  missingLog : List (List MissingRef) := []
  valError : Option ValErr := none
deriving DecidableEq, Repr

/-- The text of the `text` blocks of a response, in order. -/
def textsOf (bs : List Block) : List String :=
  bs.filterMap fun b => match b with
    | Block.text s => some s
    | _ => none

/-- The streamed text deltas of a response: one delta per non-empty text
block (a stream does not deliver empty deltas). -/
def deltasOf (bs : List Block) : List String :=
  (textsOf bs).filter fun s => s ≠ ""

/-- `textBlocks`: the response's text joined with newlines. -/
def joinedText (bs : List Block) : String :=
  String.intercalate "\n" (textsOf bs)

/-- The `onDelta` handler of `processRequest` for one text delta, with the
turn-local `hasEmittedThinking` flag threaded through: the first delta of a
turn that has not suppressed thinking emits the `thinking` phase and enters
the thinking phase; text is then buffered in the thinking or summary buffer,
or emitted directly. -/
def deltaStep (st : St) (hET : Bool) (d : String) : St × Bool :=
  let stA :=
    if !hET then
      { st with events := st.events ++ [Ev.phase StreamingPhase.thinking],
                isInThinkingPhase := true }
    else st
  let stB :=
    if stA.isInThinkingPhase then
      { stA with thinkingBuffer := stA.thinkingBuffer ++ d }
    else if stA.isInSummaryPhase then
      { stA with summaryBuffer := stA.summaryBuffer ++ d }
    else
      { stA with events := stA.events ++ [Ev.delta d] }
  (stB, true)

/-- Fold `deltaStep` over the streamed deltas of one model call. -/
def deltasFold : St → Bool → List String → St × Bool
  | st, hET, [] => (st, hET)
  | st, hET, d :: ds =>
    let r := deltaStep st hET d
    deltasFold r.1 r.2 ds

def chunksOfAux : Nat → Nat → List Char → List String
  | 0, _, _ => []
  | _, _, [] => []
  | fuel + 1, n, cs =>
    if n = 0 then [String.mk cs]
    else String.mk (cs.take n) :: chunksOfAux fuel n (cs.drop n)

/-- Split `s` into chunks of `n` characters (the
`for (i = 0; i < len; i += CHUNK_SIZE)` slicing; the configured chunk size
is positive). -/
def chunkString (n : Nat) (s : String) : List String :=
  chunksOfAux (s.length + 1) n s.data

/-- The accumulator of the per-turn tool-execution loop: the request-wide
`fileOpsThisRequest` (queried only by membership) and
`filesCreatedThisRequest` sets, the per-turn `newFileOpsThisTurn` map, the
event trace so far, and the collected tool results. -/
structure ExecSt where
  fileOps : List String
  filesCreated : List String
  newOps : List (String × FileOp)
  events : List Ev
  results : List ToolResult
deriving DecidableEq, Repr

/-- One iteration of the tool-execution loop (non-dry-run): file-operation
tracking and the `creating`/`editing` event for fresh write paths, generic
`toolStart` for path-less tools, the execution itself, the
`created`/`edited` event for paths operated on this turn, and generic
`toolEnd` for path-less tools. -/
def execOne (cfg : AgentCfg) (es : ExecSt) (tu : ToolUse) : ExecSt :=
  let filePath? := validPath? tu.input
  let es1 :=
    match filePath? with
    | some p =>
      if isWriteTool tu.name then
        let operation :=
          if es.filesCreated.contains p then FileOp.edit
          else if tu.name = "either-write" then FileOp.create
          else FileOp.edit
        let filesCreated' :=
          if !es.filesCreated.contains p && tu.name = "either-write" then
            p :: es.filesCreated
          else es.filesCreated
        if !es.fileOps.contains p then
          { es with fileOps := p :: es.fileOps,
                    filesCreated := filesCreated',
                    newOps := (p, operation) :: es.newOps,
                    events := es.events ++ [Ev.fileOp (startState operation) p] }
        else { es with filesCreated := filesCreated' }
      else es
    | none => es
  let es2 :=
    match filePath? with
    | none => { es1 with events := es1.events ++ [Ev.toolStart tu.name tu.id] }
    | some _ => es1
  let result := cfg.execTool tu
  let es3 := { es2 with results := es2.results ++ [result] }
  let es4 :=
    match filePath? with
    | some p =>
      match es3.newOps.lookup p with
      | some op => { es3 with events := es3.events ++ [Ev.fileOp (finState op) p] }
      | none => es3
    | none => es3
  match filePath? with
  | none => { es4 with events := es4.events ++ [Ev.toolEnd tu.name tu.id] }
  | some _ => es4

/-- The whole per-turn tool-execution loop. -/
def execToolsGo (cfg : AgentCfg) (tus : List ToolUse) (es : ExecSt) : ExecSt :=
  tus.foldl (execOne cfg) es

/-- `createdFilesThisTurn` (also the additions to `changedFiles`): the
truthy `metadata.path` of each non-error tool result. -/
def createdFilesOf (results : List ToolResult) : List String :=
  results.filterMap fun r =>
    match r.metadataPath with
    | some p => if p ≠ "" && !r.is_error then some p else none
    | none => none

def missingRefLine (r : MissingRef) : String :=
  "  - " ++ r.htmlFile ++ " references <" ++ r.tag ++ " " ++ r.attr ++ "=\""
    ++ r.file ++ "\"> but " ++ r.file ++ " was not created"

/-- The warning block appended to the last tool result of a turn with
missing references. -/
def missingWarning (refs : List MissingRef) : String :=
  "\n\n⚠️ WARNING: Missing file references detected:\n"
    ++ String.intercalate "\n" (refs.map missingRefLine)
    ++ "\n\nYou MUST create these files in your next response to make the app functional."

/-- Append `w` to the content of the last tool result. -/
def appendToLast (w : String) : List ToolResult → List ToolResult
  | [] => []
  | [r] => [{ r with content := r.content ++ w }]
  | r :: rs => r :: appendToLast w rs

/-- Insert into a sorted string list (ascending). -/
def insertSorted (x : String) : List String → List String
  | [] => [x]
  | y :: ys => if x ≤ y then x :: y :: ys else y :: insertSorted x ys

/-- Ascending insertion sort; embeds `Array.from(set).sort()` (lexicographic
order on characters; paths are ASCII). -/
def sortStrings : List String → List String
  | [] => []
  | x :: xs => insertSorted x (sortStrings xs)

/-- `Agent.createChangeSummary`: the sorted changed-file listing. -/
def createChangeSummary (files : List String) : String :=
  if files.isEmpty then ""
  else
    let sorted := sortStrings files
    if files.length = 1 then
      "**Changed:** " ++ sorted.headD "" ++ "\n"
    else
      "**Changed (" ++ toString files.length ++ " files):**\n"
        ++ String.intercalate "\n" (sorted.map fun f => "  - " ++ f) ++ "\n"

/-- `Agent.runVerification`: change summary plus the opaque verifier and
metrics summaries. -/
def runVerification (cfg : AgentCfg) (changedFiles : List String) : String :=
  "\n\n---\n" ++ createChangeSummary changedFiles ++ cfg.verifyStr
    ++ "\n\n**Metrics:**\n" ++ cfg.metricsStr

/-- A crude rendering of `JSON.stringify(input, null, 2)` for the dry-run
result text (nothing ever inspects this string). -/
def renderInput (i : ToolInput) : String :=
  let optField := fun (n : String) (v : Option String) =>
    match v with
    | some s => [n ++ ": " ++ s]
    | none => ([] : List String)
  String.intercalate ", "
    (optField "path" i.path ++ optField "needle" i.needle
      ++ optField "content" i.content
      ++ i.extra.map (fun kv => kv.1 ++ ": " ++ kv.2)
      ++ optField "_enforcerWarning" i.enforcerWarning)

/-- The `justExecutedTools` prologue of a turn: a turn following tool
execution suppresses the thinking phase and starts buffering summary
text. -/
def startSummaryIfNeeded (st : St) : St :=
  if st.justExecutedTools = true then
    { st with isInSummaryPhase := true, summaryBuffer := "",
              justExecutedTools := false }
  else st

/-- The thinking-to-reasoning transition after a model response: with
buffered thinking text and tools to execute, emit `onThinkingComplete`, the
`reasoning` phase and the chunked reasoning text; with buffered text and no
tools, flush the buffer as one ordinary delta. -/
def thinkTransition (cfg : AgentCfg) (toolUses : List ToolUse) (st : St) :
    St :=
  if st.isInThinkingPhase && !st.thinkingBuffer.isEmpty
      && !toolUses.isEmpty then
    { st with isInThinkingPhase := false,
              events := st.events
                ++ [Ev.thinkingComplete, Ev.phase StreamingPhase.reasoning]
                ++ (chunkString cfg.chunkSize st.thinkingBuffer).map
                    Ev.reasoningDelta,
              thinkingBuffer := "" }
  else if st.isInThinkingPhase && !st.thinkingBuffer.isEmpty
      && toolUses.isEmpty then
    { st with isInThinkingPhase := false,
              events := st.events ++ [Ev.delta st.thinkingBuffer],
              thinkingBuffer := "" }
  else st

/-- Append the assistant message to history (the `'...'` placeholder when
the enforced blocks are empty). -/
def pushAssistant (enforcedBlocks : List Block) (st : St) : St :=
  if enforcedBlocks.isEmpty then
    { st with history := st.history
        ++ [({ role := Role.assistant,
               content := MsgContent.list [Block.text "..."] } : Message)] }
  else
    { st with history := st.history
        ++ [({ role := Role.assistant,
               content := MsgContent.list enforcedBlocks } : Message)] }

/-- The zero-tool branch that ends the request: store the final text, flush
a non-empty summary buffer behind a `building` phase, and append the
verification summary when tools ran and the run is not a dry run. -/
def finishTurn (cfg : AgentCfg) (textBlocks : String) (st0 : St) : St :=
  let st : St := { st0 with finalResponse := textBlocks }
  let st :=
    if st.isInSummaryPhase && !st.summaryBuffer.isEmpty then
      { st with events := st.events ++ [Ev.phase StreamingPhase.building]
                  ++ (chunkString cfg.chunkSize st.summaryBuffer).map
                      Ev.delta,
                isInSummaryPhase := false, summaryBuffer := "" }
    else st
  if st.hasExecutedTools && !cfg.dryRun then
    { st with finalResponse :=
        st.finalResponse ++ runVerification cfg st.changedFiles }
  else st

/-- The tool-execution branch of a turn: emit the `code-writing` phase, run
the tools (or synthesize dry-run results), run the missing-reference check
on this turn's created files, and append the tool results to history. -/
def execTurn (cfg : AgentCfg) (toolUses : List ToolUse) (st0 : St) : St :=
  let st : St := { st0 with
    events := st0.events ++ [Ev.phase StreamingPhase.codeWriting],
    justExecutedTools := true, hasExecutedTools := true }
  if cfg.dryRun then
    let toolResults := toolUses.map fun tu =>
      ({ tool_use_id := tu.id,
         content := "[DRY RUN] Would execute: " ++ tu.name
           ++ " with input: " ++ renderInput tu.input } : ToolResult)
    { st with history := st.history
        ++ [({ role := Role.user,
               content := MsgContent.list (toolResults.map Block.toolResultB) }
              : Message)] }
  else
    let es := execToolsGo cfg toolUses
      { fileOps := st.fileOps, filesCreated := st.filesCreated,
        newOps := [], events := st.events, results := [] }
    let createdThisTurn := createdFilesOf es.results
    let changed := createdThisTurn.foldl
      (fun acc p => if acc.contains p then acc else acc ++ [p])
      st.changedFiles
    let missing := checkMissingFileReferences toolUses createdThisTurn
      es.results
    let results2 :=
      if missing.isEmpty then es.results
      else appendToLast (missingWarning missing) es.results
    { st with
      fileOps := es.fileOps, filesCreated := es.filesCreated,
      events := es.events, changedFiles := changed,
      missingLog := st.missingLog ++ [missing],
      history := st.history
        ++ [({ role := Role.user,
               content := MsgContent.list (results2.map Block.toolResultB) }
              : Message)] }

/-- One iteration of the `while (turnCount < MAX_AGENT_TURNS)` body of
`processRequest`.  Returns the successor state and whether the loop stops
(`break` on a turn without executable tool invocations, or a validation
throw).  The trailing `if (response.stopReason === 'end_turn') continue;`
is kept as a conditional whose branches coincide, exactly as in the
source, where both paths re-enter the loop. -/
def loopIter (cfg : AgentCfg) (st0 : St) : St × Bool :=
  let st : St := { st0 with turnCount := st0.turnCount + 1 }
  match validateConversationHistory st.history with
  | Except.error e => ({ st with valError := some e }, true)
  | Except.ok _ =>
    let hET0 := st.justExecutedTools
    let st := startSummaryIfNeeded st
    let resp := cfg.responses st.turnCount
    let st := { st with sendCount := st.sendCount + 1 }
    let st := (deltasFold st hET0 (deltasOf resp.content)).1
    let enforced := injectReadBeforeWriteBlocks resp.content
    let st := thinkTransition cfg enforced.2 st
    let st := pushAssistant enforced.1 st
    if enforced.2.isEmpty then
      (finishTurn cfg (joinedText resp.content) st, true)
    else
      let st := execTurn cfg enforced.2 st
      if resp.stopReason = some "end_turn" then (st, false) else (st, false)

/-- The fuel-indexed `while (turnCount < MAX_AGENT_TURNS)` loop;
`processRequest` supplies `maxTurns` fuel, which dominates the guard since
every iteration increments `turnCount`. -/
def runLoop (cfg : AgentCfg) : Nat → St → St
  | 0, st => st
  | fuel + 1, st =>
    if st.turnCount < cfg.maxTurns then
      let r := loopIter cfg st
      if r.2 then r.1 else runLoop cfg fuel r.1
    else st

/-- `Agent.processRequest`: push the user message, run the turn loop, and on
non-exceptional exit emit the final `completed` phase and the `onComplete`
callback.  A validation throw propagates (no trailing events). -/
def processRequest (cfg : AgentCfg) (userMessage : String) : St :=
  let st0 : St := { history := cfg.initialHistory
    ++ [{ role := Role.user, content := MsgContent.list [Block.text userMessage] }] }
  let st := runLoop cfg cfg.maxTurns st0
  match st.valError with
  | some _ => st
  | none =>
    { st with events := st.events
        ++ [Ev.phase StreamingPhase.completed, Ev.complete] }

/-- The phases delivered to `onPhase`, in order. -/
def phasesOf (evs : List Ev) : List StreamingPhase :=
  evs.filterMap fun e => match e with
    | Ev.phase p => some p
    | _ => none

/-- Strict history well-formedness: every message has a non-empty block
list as content.  This is what every history built by the loop itself
satisfies, and it implies the validator passes. -/
def strictOk (msgs : List Message) : Bool :=
  msgs.all fun m => match m.content with
    | MsgContent.list bs => !bs.isEmpty
    | MsgContent.nonList _ => false

/-- The events `execOne` emits around one tool execution, described from
its observable conditions: a path-less invocation gets generic
`toolStart`/`toolEnd` events; a write invocation with a truthy path not yet
operated on in this request gets a `creating`/`editing` event before
execution; any invocation with a truthy path that entered this turn's
operation map (by this or an earlier invocation of the same turn) gets a
`created`/`edited` event after execution.  First component: events before
the execution; second: events after it. -/
def fileOpEventsSpec (es : ExecSt) (tu : ToolUse) : List Ev × List Ev :=
  match validPath? tu.input with
  | none => ([Ev.toolStart tu.name tu.id], [Ev.toolEnd tu.name tu.id])
  | some p =>
    let fresh := isWriteTool tu.name && !es.fileOps.contains p
    let operation :=
      if es.filesCreated.contains p then FileOp.edit
      else if tu.name = "either-write" then FileOp.create
      else FileOp.edit
    let newOps' := if fresh then (p, operation) :: es.newOps else es.newOps
    (if fresh then [Ev.fileOp (startState operation) p] else [],
     match newOps'.lookup p with
     | some op => [Ev.fileOp (finState op) p]
     | none => [])

/-- Replace the stop reason of the response of round-trip `t`, leaving
everything else of the configuration unchanged. -/
def withStopReason (cfg : AgentCfg) (t : Nat) (sr : Option String) : AgentCfg :=
  { cfg with responses := fun n =>
      if n = t then { cfg.responses n with stopReason := sr }
      else cfg.responses n }

/-- Whether an event is a file-operation or generic tool progress event. -/
def isToolProgressEv (e : Ev) : Bool :=
  match e with
  | Ev.fileOp _ _ => true
  | Ev.toolStart _ _ => true
  | Ev.toolEnd _ _ => true
  | _ => false

/-! ### Concrete scenario data for witnesses and counterexamples -/

/-- An `either-write` invocation. -/
def wrTU (i p c : String) : ToolUse :=
  { id := i, name := "either-write", input := { path := some p, content := some c } }

/-- An `either-line-replace` invocation without a needle. -/
def edTU (i p : String) : ToolUse :=
  { id := i, name := "either-line-replace", input := { path := some p } }

/-- An `either-view` invocation. -/
def vwTU (i p : String) : ToolUse :=
  { id := i, name := "either-view", input := { path := some p } }

/-- A tool result echoing the invocation's path as `metadata.path` (as the
file tools do). -/
def echoExec : ToolUse → ToolResult := fun tu =>
  { tool_use_id := tu.id, content := "ok", metadataPath := tu.input.path }

/-- Scenario for C6: turn 1 creates `src/App.tsx`, turn 2 edits it with a
needle (and without reading it in that turn), turn 3 has no tools. -/
def scenBcfg : AgentCfg :=
  { maxTurns := 10, chunkSize := 50,
    responses := fun n =>
      if n = 1 then { content := [Block.toolUse (wrTU "t1" "src/App.tsx" "export default function App() ...")] }
      else if n = 2 then
        { content := [Block.toolUse
            { id := "t2", name := "either-line-replace",
              input := { path := some "src/App.tsx", needle := some "function App" } }] }
      else { content := [Block.text "done"] },
    execTool := echoExec }

/-- The turn-2 edit of the C6 scenario. -/
def scenBedit : ToolUse :=
  { id := "t2", name := "either-line-replace",
    input := { path := some "src/App.tsx", needle := some "function App" } }

/-- Counterexample scenario for C7: turn 1 creates `main.js`, turn 2 writes
`index.html` referencing `main.js` via a script tag, turn 3 ends. -/
def c7cex : AgentCfg :=
  { maxTurns := 10, chunkSize := 50,
    responses := fun n =>
      if n = 1 then { content := [Block.toolUse (wrTU "t1" "main.js" "console.log(1)")] }
      else if n = 2 then
        { content := [Block.toolUse (wrTU "t2" "index.html" "<script src=\"main.js\"></script>")] }
      else { content := [Block.text "done"] },
    execTool := echoExec }

/-- Counterexample scenario for C8: one executed `either-view` invocation
carrying a file path, then a toolless turn. -/
def c8cex : AgentCfg :=
  { maxTurns := 10, chunkSize := 50,
    responses := fun n =>
      if n = 1 then { content := [Block.toolUse (vwTU "v1" "a.txt")] }
      else { content := [] },
    execTool := fun tu => { tool_use_id := tu.id, content := "ok" } }

/-- Counterexample scenario for C5: the first model turn requests a tool but
streams no text. -/
def c5cex : AgentCfg :=
  { maxTurns := 10, chunkSize := 50,
    responses := fun n =>
      if n = 1 then { content := [Block.toolUse (wrTU "t1" "a.js" "let x = 1")] }
      else { content := [Block.text "done"] },
    execTool := echoExec }

/-- Witness scenario for C5 (amended): two texty tool turns, then a texty
toolless turn. -/
def c5wit : AgentCfg :=
  { maxTurns := 10, chunkSize := 50,
    responses := fun n =>
      if n = 1 then
        { content := [Block.text "I will build it",
                      Block.toolUse (wrTU "t1" "a.js" "let x = 1")] }
      else if n = 2 then
        { content := [Block.text "more",
                      Block.toolUse (wrTU "t2" "b.js" "let y = 2")] }
      else { content := [Block.text "done"] },
    execTool := echoExec }

/-- Witness scenario for C5 (amended), second conjunct: a single texty
toolless turn. -/
def c5witNoTool : AgentCfg :=
  { maxTurns := 10, chunkSize := 50,
    responses := fun _ => { content := [Block.text "hello there"] },
    execTool := echoExec }

/-- Witness scenario for C2: the first turn requests one tool. -/
def c2cfg : AgentCfg :=
  { maxTurns := 3, chunkSize := 50,
    responses := fun n =>
      if n = 1 then { content := [Block.toolUse (wrTU "t1" "a.js" "let x = 1")],
                      stopReason := some "tool_use" }
      else { content := [Block.text "done"], stopReason := some "end_turn" },
    execTool := echoExec }

/-- Witness start state for C2: a fresh history holding one user message. -/
def c2st : St :=
  { history := [{ role := Role.user, content := MsgContent.list [Block.text "hi"] }] }

/-- Counterexample invocation for C10: an `either-line-replace` whose input
HAS a needle field, holding the empty string. -/
def c10edit : ToolUse :=
  { id := "e1", name := "either-line-replace",
    input := { path := some "f.txt", needle := some "" } }

/-- Witness blocks for C3: a text block, an unread edit, an explicit read
and a second edit of the same (now read) path. -/
def c3blocks : List Block :=
  [Block.text "plan", Block.toolUse (edTU "e1" "a.txt"),
   Block.toolUse (vwTU "r1" "b.txt"), Block.toolUse (edTU "e2" "b.txt")]

/-- Scenario D history for C4: an assistant message whose content is the
bare string `"hello"`. -/
def scenDmsgs : List Message :=
  [{ role := Role.user, content := MsgContent.list [Block.text "hi"] },
   { role := Role.assistant, content := MsgContent.nonList "string" }]

/-- Witness history for C9: an assistant message with a `server_tool_use`
block and no matching `web_search_tool_result`, followed by a user
message. -/
def c9msgs : List Message :=
  [{ role := Role.assistant,
     content := MsgContent.list
       [Block.text "searching",
        Block.serverToolUse "srvtoolu_1" "web_search"] },
   { role := Role.user, content := MsgContent.list [Block.text "go on"] }]

/-! ## Lemmas about the read-before-write enforcer -/

theorem validPath?_ne_empty {i : ToolInput} {p : String}
    (h : validPath? i = some p) : p ≠ "" := by
  unfold validPath? at h
  rcases hp : i.path with _ | q <;> rw [hp] at h
  · cases h
  · by_cases hq : q = ""
    · simp [hq] at h
    · simp [hq] at h
      exact h ▸ hq

theorem enforceGo_cons (b : Block) (rest : List Block) (seen : List String)
    (cnt : Nat) :
    enforceGo (b :: rest) seen cnt =
      ((enfEmit b seen cnt).1
          ++ (enforceGo rest (enfStep (seen, cnt) b).1 (enfStep (seen, cnt) b).2).1,
       (enfEmit b seen cnt).2
          ++ (enforceGo rest (enfStep (seen, cnt) b).1 (enfStep (seen, cnt) b).2).2) :=
  rfl

theorem blockToolUses_append (a b : List Block) :
    blockToolUses (a ++ b) = blockToolUses a ++ blockToolUses b :=
  List.filterMap_append a b toolUseOf

theorem enfEmit_snd (b : Block) (seen : List String) (cnt : Nat) :
    (enfEmit b seen cnt).2 = blockToolUses (enfEmit b seen cnt).1 := by
  cases b with
  | toolUse tu =>
    simp only [enfEmit]
    split
    · simp [blockToolUses, toolUseOf]
    · split
      · split
        · split <;> simp [blockToolUses, toolUseOf]
        · simp [blockToolUses, toolUseOf]
      · simp [blockToolUses, toolUseOf]
  | text s => simp [enfEmit, blockToolUses, toolUseOf]
  | serverToolUse i n => simp [enfEmit, blockToolUses, toolUseOf]
  | webSearchToolResult t => simp [enfEmit, blockToolUses, toolUseOf]
  | toolResultB r => simp [enfEmit, blockToolUses, toolUseOf]

theorem enforceGo_snd (bs : List Block) :
    ∀ (seen : List String) (cnt : Nat),
      (enforceGo bs seen cnt).2 = blockToolUses (enforceGo bs seen cnt).1 := by
  induction bs with
  | nil => intro seen cnt; simp [enforceGo, blockToolUses]
  | cons b rest ih =>
    intro seen cnt
    rw [enforceGo_cons]
    simp only [blockToolUses_append]
    rw [← ih, ← enfEmit_snd]

theorem enfScan_cons (b : Block) (l : List Block) (seen : List String)
    (cnt : Nat) :
    enfScan (b :: l) seen cnt
      = enfScan l (enfStep (seen, cnt) b).1 (enfStep (seen, cnt) b).2 := by
  simp [enfScan, List.foldl]

theorem enforceGo_append (l r : List Block) :
    ∀ (seen : List String) (cnt : Nat),
      enforceGo (l ++ r) seen cnt
        = ((enforceGo l seen cnt).1
             ++ (enforceGo r (enfScan l seen cnt).1 (enfScan l seen cnt).2).1,
           (enforceGo l seen cnt).2
             ++ (enforceGo r (enfScan l seen cnt).1 (enfScan l seen cnt).2).2) := by
  induction l with
  | nil => intro seen cnt; simp [enforceGo, enfScan]
  | cons b t ih =>
    intro seen cnt
    rw [List.cons_append, enforceGo_cons, enforceGo_cons, enfScan_cons, ih]
    simp

theorem annotateTU_name (tu : ToolUse) : (annotateTU tu).name = tu.name := rfl

theorem annotateTU_id (tu : ToolUse) : (annotateTU tu).id = tu.id := rfl

theorem hasReadOf_append (p : String) (a b : List Block) :
    hasReadOf p (a ++ b) = (hasReadOf p a || hasReadOf p b) := by
  simp [hasReadOf, List.any_append]

theorem validPath?_injectedRead (cnt : Nat) (q : String) (hq : q ≠ "") :
    validPath? (injectedRead cnt q).input = some q := by
  simp [validPath?, injectedRead, hq]

theorem isReadOf_injectedRead (p q : String) (cnt : Nat) (hq : q ≠ "") :
    isReadOf p (Block.toolUse (injectedRead cnt q)) = (q == p) := by
  simp [isReadOf, injectedRead, READ_TOOL, validPath?, hq]

theorem isReadOf_annotate_edit (p : String) (tu : ToolUse)
    (h : tu.name = "either-line-replace") :
    isReadOf p (Block.toolUse (annotateTU tu)) = false := by
  simp [isReadOf, annotateTU_name, h, READ_TOOL]

set_option maxRecDepth 4000 in
theorem enfStep_mem (p : String) (b : Block) (seen : List String) (cnt : Nat) :
    p ∈ (enfStep (seen, cnt) b).1
      ↔ p ∈ seen ∨ hasReadOf p (enfEmit b seen cnt).1 = true := by
  cases b with
  | toolUse tu =>
    by_cases h1 : tu.name = "either-view"
    · rcases hv : validPath? tu.input with _ | q
      · simp only [enfStep, enfEmit, READ_TOOL, h1, hv, if_true,
                   eq_self_iff_true]
        simp [hasReadOf, isReadOf, READ_TOOL, h1, hv]
      · simp only [enfStep, enfEmit, READ_TOOL, h1, hv, if_true,
                   eq_self_iff_true]
        simp only [List.mem_cons, hasReadOf, List.any_cons, List.any_nil,
                   isReadOf, h1, hv, READ_TOOL]
        constructor
        · rintro (h | h)
          · exact Or.inr (by simp [h])
          · exact Or.inl h
        · rintro (h | h)
          · exact Or.inr h
          · simp at h
            exact Or.inl h.symm
    · by_cases h2 : tu.name = "either-line-replace"
      · rcases hv : validPath? tu.input with _ | q
        · simp only [enfStep, enfEmit, READ_TOOL, h1, h2, hv]
          simp [hasReadOf, isReadOf_annotate_edit p tu h2]
        · by_cases h3 : q ∈ seen
          · simp only [enfStep, enfEmit, READ_TOOL, h1, h2, hv]
            simp [h3, hasReadOf, isReadOf_annotate_edit p tu h2]
          · have hq : q ≠ "" := validPath?_ne_empty hv
            have e1 : (enfStep (seen, cnt) (Block.toolUse tu)).1 = q :: seen := by
              simp [enfStep, READ_TOOL, h1, h2, hv, h3]
            have e2 : (enfEmit (Block.toolUse tu) seen cnt).1
                = [Block.toolUse (injectedRead cnt q),
                   Block.toolUse (annotateTU tu)] := by
              simp [enfEmit, READ_TOOL, h1, h2, hv, h3]
            rw [e1, e2]
            simp only [List.mem_cons, hasReadOf, List.any_cons, List.any_nil,
                       isReadOf_annotate_edit p tu h2,
                       isReadOf_injectedRead p q cnt hq, Bool.or_false,
                       beq_iff_eq]
            constructor
            · rintro (h | h)
              · exact Or.inr h.symm
              · exact Or.inl h
            · rintro (h | h)
              · exact Or.inr h
              · exact Or.inl h.symm
      · simp only [enfStep, enfEmit, READ_TOOL, h1, h2]
        simp [hasReadOf, isReadOf, READ_TOOL, h1]
  | text s => simp [enfStep, enfEmit, hasReadOf, isReadOf]
  | serverToolUse i n => simp [enfStep, enfEmit, hasReadOf, isReadOf]
  | webSearchToolResult t => simp [enfStep, enfEmit, hasReadOf, isReadOf]
  | toolResultB r => simp [enfStep, enfEmit, hasReadOf, isReadOf]

theorem enfScan_mem (p : String) (l : List Block) :
    ∀ (seen : List String) (cnt : Nat),
      p ∈ (enfScan l seen cnt).1
        ↔ p ∈ seen ∨ hasReadOf p (enforceGo l seen cnt).1 = true := by
  induction l with
  | nil => intro seen cnt; simp [enfScan, enforceGo, hasReadOf]
  | cons b t ih =>
    intro seen cnt
    rw [enfScan_cons, enforceGo_cons]
    simp only [ih, enfStep_mem, hasReadOf_append, Bool.or_eq_true]
    tauto

theorem isInjected_injectedRead (cnt : Nat) (p : String) :
    isInjectedBlockRead (Block.toolUse (injectedRead cnt p)) = true := by
  simp [isInjectedBlockRead, isInjTU, injectedRead, String.data_append,
        List.isPrefixOf_iff_prefix]

theorem enfEmit_filter (b : Block) (seen : List String) (cnt : Nat)
    (hb : isInjectedBlockRead b = false) :
    (enfEmit b seen cnt).1.filter (fun x => !isInjectedBlockRead x)
      = [annotateBlock b] := by
  cases b with
  | toolUse tu =>
    by_cases h1 : tu.name = "either-view"
    · have : ¬ tu.name = "either-line-replace" := by simp [h1]
      simp [enfEmit, annotateBlock, READ_TOOL, h1, this, hb]
    · by_cases h2 : tu.name = "either-line-replace"
      · have hb' : isInjectedBlockRead (Block.toolUse (annotateTU tu)) = false := by
          simpa [isInjectedBlockRead, annotateTU_id] using hb
        rcases hv : validPath? tu.input with _ | q
        · simp [enfEmit, annotateBlock, READ_TOOL, h1, h2, hv, hb']
        · by_cases h3 : q ∈ seen
          · simp [enfEmit, annotateBlock, READ_TOOL, h1, h2, hv, h3, hb']
          · simp [enfEmit, annotateBlock, READ_TOOL, h1, h2, hv, h3, hb',
                  isInjected_injectedRead]
      · simp [enfEmit, annotateBlock, READ_TOOL, h1, h2, hb]
  | text s => simp [enfEmit, annotateBlock, isInjectedBlockRead]
  | serverToolUse i n => simp [enfEmit, annotateBlock, isInjectedBlockRead]
  | webSearchToolResult t => simp [enfEmit, annotateBlock, isInjectedBlockRead]
  | toolResultB r => simp [enfEmit, annotateBlock, isInjectedBlockRead]

theorem enforceGo_filter (bs : List Block)
    (hids : ∀ b ∈ bs, isInjectedBlockRead b = false) :
    ∀ (seen : List String) (cnt : Nat),
      (enforceGo bs seen cnt).1.filter (fun x => !isInjectedBlockRead x)
        = bs.map annotateBlock := by
  induction bs with
  | nil => intro seen cnt; simp [enforceGo]
  | cons b t ih =>
    intro seen cnt
    rw [enforceGo_cons]
    simp only [List.filter_append, List.map_cons]
    rw [enfEmit_filter b seen cnt (hids b (by simp)),
        ih (fun x hx => hids x (by simp [hx]))]
    rfl

theorem isInjectedBlockRead_toolUse (tu : ToolUse) :
    isInjectedBlockRead (Block.toolUse tu) = isInjTU tu := rfl

theorem blockToolUses_filter (l : List Block) :
    blockToolUses (l.filter (fun x => !isInjectedBlockRead x))
      = (blockToolUses l).filter (fun tu => !isInjTU tu) := by
  induction l with
  | nil => rfl
  | cons b t ih =>
    cases b with
    | toolUse tu =>
      by_cases h : isInjTU tu = true
      · simp only [blockToolUses, toolUseOf, isInjectedBlockRead_toolUse, h,
                   List.filter_cons, List.filterMap_cons, Bool.not_true,
                   Bool.false_eq_true, if_false]
        simpa [blockToolUses] using ih
      · simp only [blockToolUses, toolUseOf, isInjectedBlockRead_toolUse,
                   List.filter_cons, List.filterMap_cons]
        rw [if_pos (by simp [h]), if_pos (by simp [h])]
        simp only [List.filterMap_cons, toolUseOf]
        rw [show blockToolUses (List.filter (fun x => !isInjectedBlockRead x) t)
              = List.filterMap toolUseOf
                  (List.filter (fun x => !isInjectedBlockRead x) t) from rfl]
          at ih
        rw [ih]
        rfl
    | text s =>
      simpa [blockToolUses, toolUseOf, List.filter_cons,
             show isInjectedBlockRead (Block.text s) = false from rfl] using ih
    | serverToolUse i n =>
      simpa [blockToolUses, toolUseOf, List.filter_cons,
             show isInjectedBlockRead (Block.serverToolUse i n) = false from
               rfl] using ih
    | webSearchToolResult t2 =>
      simpa [blockToolUses, toolUseOf, List.filter_cons,
             show isInjectedBlockRead (Block.webSearchToolResult t2) = false
               from rfl] using ih
    | toolResultB r =>
      simpa [blockToolUses, toolUseOf, List.filter_cons,
             show isInjectedBlockRead (Block.toolResultB r) = false from
               rfl] using ih

theorem enfEmit_edit (tu : ToolUse) (seen : List String) (cnt : Nat)
    (h2 : tu.name = "either-line-replace") :
    enfEmit (Block.toolUse tu) seen cnt
      = (editInjection tu (seen, cnt) ++ [Block.toolUse (annotateTU tu)],
         blockToolUses (editInjection tu (seen, cnt)) ++ [annotateTU tu]) := by
  have h1 : ¬ tu.name = READ_TOOL := by simp [h2, READ_TOOL]
  rcases hv : validPath? tu.input with _ | q
  · simp [enfEmit, editInjection, READ_TOOL, h1, h2, hv, blockToolUses,
          toolUseOf]
  · by_cases h3 : q ∈ seen
    · simp [enfEmit, editInjection, READ_TOOL, h1, h2, hv, h3, blockToolUses,
            toolUseOf]
    · simp [enfEmit, editInjection, READ_TOOL, h1, h2, hv, h3, blockToolUses,
            toolUseOf]

theorem enforce_edit_decomp (l : List Block) (tu : ToolUse) (r : List Block)
    (h2 : tu.name = "either-line-replace") :
    injectReadBeforeWriteBlocks (l ++ Block.toolUse tu :: r)
      = ((enforceGo l [] 0).1
           ++ editInjection tu (enfScan l [] 0)
           ++ Block.toolUse (annotateTU tu)
           :: (enforceGo r (enfStep (enfScan l [] 0) (Block.toolUse tu)).1
                (enfStep (enfScan l [] 0) (Block.toolUse tu)).2).1,
         (enforceGo l [] 0).2
           ++ blockToolUses (editInjection tu (enfScan l [] 0))
           ++ annotateTU tu
           :: (enforceGo r (enfStep (enfScan l [] 0) (Block.toolUse tu)).1
                (enfStep (enfScan l [] 0) (Block.toolUse tu)).2).2) := by
  show enforceGo (l ++ Block.toolUse tu :: r) [] 0 = _
  rw [enforceGo_append, enforceGo_cons, enfEmit_edit tu _ _ h2]
  simp

/-- C3: For every assistant turn fed to the Enforcer, a synthetic read for
path `P` is injected immediately before an `either-line-replace` invocation
targeting non-empty string path `P` exactly when no read of `P` (an explicit
`either-view` or a previously injected read) occurs earlier in the same
turn's processed sequence; injected reads appear at the inserted position in
both the returned content-block sequence and the executable tool list (the
executable list is the `tool_use` sub-sequence of the content blocks), and
erasing the injected reads from either list leaves exactly the original
blocks (needle-annotated edits included) in their original relative
order. -/
theorem enforcer_inject_read_iff (bs : List Block)
    (hids : ∀ b ∈ bs, isInjectedBlockRead b = false) :
    ((injectReadBeforeWriteBlocks bs).2
        = blockToolUses (injectReadBeforeWriteBlocks bs).1)
    ∧ ((injectReadBeforeWriteBlocks bs).1.filter
          (fun x => !isInjectedBlockRead x) = bs.map annotateBlock)
    ∧ ((injectReadBeforeWriteBlocks bs).2.filter (fun tu => !isInjTU tu)
        = blockToolUses (bs.map annotateBlock))
    ∧ (∀ l tu r p, bs = l ++ Block.toolUse tu :: r →
        tu.name = "either-line-replace" → validPath? tu.input = some p →
        injectReadBeforeWriteBlocks bs
          = ((enforceGo l [] 0).1
               ++ (if hasReadOf p (enforceGo l [] 0).1 = true then []
                   else [Block.toolUse (injectedRead (enfScan l [] 0).2 p)])
               ++ Block.toolUse (annotateTU tu)
               :: (enforceGo r (enfStep (enfScan l [] 0) (Block.toolUse tu)).1
                    (enfStep (enfScan l [] 0) (Block.toolUse tu)).2).1,
             (enforceGo l [] 0).2
               ++ (if hasReadOf p (enforceGo l [] 0).1 = true then []
                   else [injectedRead (enfScan l [] 0).2 p])
               ++ annotateTU tu
               :: (enforceGo r (enfStep (enfScan l [] 0) (Block.toolUse tu)).1
                    (enfStep (enfScan l [] 0) (Block.toolUse tu)).2).2)) := by
  refine ⟨enforceGo_snd bs [] 0, enforceGo_filter bs hids [] 0, ?_, ?_⟩
  · show (enforceGo bs [] 0).2.filter (fun tu => !isInjTU tu) = _
    rw [enforceGo_snd bs [] 0, ← blockToolUses_filter,
        enforceGo_filter bs hids [] 0]
  · intro l tu r p hbs h2 hv
    subst hbs
    have hc : (p ∈ (enfScan l [] 0).1)
        ↔ (hasReadOf p (enforceGo l [] 0).1 = true) := by
      simpa using enfScan_mem p l [] 0
    rw [enforce_edit_decomp l tu r h2]
    by_cases hr : hasReadOf p (enforceGo l [] 0).1 = true
    · have hm : p ∈ (enfScan l [] 0).1 := hc.mpr hr
      simp [editInjection, hv, hm, hr, blockToolUses, toolUseOf]
    · have hm : ¬ p ∈ (enfScan l [] 0).1 := fun h => hr (hc.mp h)
      simp [editInjection, hv, hm, hr, blockToolUses, toolUseOf]

/-- C3 witness: the C3 theorem applied to a concrete turn holding a text
block, an edit of the unread path `a.txt`, an explicit read of `b.txt` and
an edit of the (then already read) path `b.txt`. -/
theorem enforcer_inject_read_iff_witness :
    ((injectReadBeforeWriteBlocks c3blocks).2
        = blockToolUses (injectReadBeforeWriteBlocks c3blocks).1)
    ∧ ((injectReadBeforeWriteBlocks c3blocks).1.filter
          (fun x => !isInjectedBlockRead x) = c3blocks.map annotateBlock)
    ∧ (injectReadBeforeWriteBlocks c3blocks
        = ((enforceGo [Block.text "plan"] [] 0).1
             ++ (if hasReadOf "a.txt"
                     (enforceGo [Block.text "plan"] [] 0).1 = true then []
                 else [Block.toolUse
                         (injectedRead
                           (enfScan [Block.text "plan"] [] 0).2 "a.txt")])
             ++ Block.toolUse (annotateTU (edTU "e1" "a.txt"))
             :: (enforceGo
                  [Block.toolUse (vwTU "r1" "b.txt"),
                   Block.toolUse (edTU "e2" "b.txt")]
                  (enfStep (enfScan [Block.text "plan"] [] 0)
                    (Block.toolUse (edTU "e1" "a.txt"))).1
                  (enfStep (enfScan [Block.text "plan"] [] 0)
                    (Block.toolUse (edTU "e1" "a.txt"))).2).1,
           (enforceGo [Block.text "plan"] [] 0).2
             ++ (if hasReadOf "a.txt"
                     (enforceGo [Block.text "plan"] [] 0).1 = true then []
                 else [injectedRead
                         (enfScan [Block.text "plan"] [] 0).2 "a.txt"])
             ++ annotateTU (edTU "e1" "a.txt")
             :: (enforceGo
                  [Block.toolUse (vwTU "r1" "b.txt"),
                   Block.toolUse (edTU "e2" "b.txt")]
                  (enfStep (enfScan [Block.text "plan"] [] 0)
                    (Block.toolUse (edTU "e1" "a.txt"))).1
                  (enfStep (enfScan [Block.text "plan"] [] 0)
                    (Block.toolUse (edTU "e1" "a.txt"))).2).2)) := by
  have h := enforcer_inject_read_iff c3blocks (by decide)
  exact ⟨h.1, h.2.1,
    h.2.2.2 [Block.text "plan"] (edTU "e1" "a.txt")
      [Block.toolUse (vwTU "r1" "b.txt"), Block.toolUse (edTU "e2" "b.txt")]
      "a.txt" (by decide) (by decide) (by decide)⟩

theorem blockToolUses_cons_toolUse (tu : ToolUse) (t : List Block) :
    blockToolUses (Block.toolUse tu :: t) = tu :: blockToolUses t := by
  simp [blockToolUses, toolUseOf]

theorem blockToolUses_cons_other (b : Block) (t : List Block)
    (hb : toolUseOf b = none) :
    blockToolUses (b :: t) = blockToolUses t := by
  simp [blockToolUses, List.filterMap_cons, hb]

theorem enforceGo_writes (bs : List Block)
    (h : ∀ tu ∈ blockToolUses bs, tu.name = "either-write") :
    ∀ (seen : List String) (cnt : Nat),
      enforceGo bs seen cnt = (bs, blockToolUses bs) := by
  induction bs with
  | nil => intro seen cnt; simp [enforceGo, blockToolUses]
  | cons b t ih =>
    intro seen cnt
    rw [enforceGo_cons]
    cases b with
    | toolUse tu =>
      rw [blockToolUses_cons_toolUse] at h
      have hname : tu.name = "either-write" := h tu (by simp)
      have h1 : ¬ tu.name = "either-view" := by simp [hname]
      have h2 : ¬ tu.name = "either-line-replace" := by simp [hname]
      have ht : ∀ tu2 ∈ blockToolUses t, tu2.name = "either-write" :=
        fun tu2 htu2 => h tu2 (List.mem_cons_of_mem _ htu2)
      rw [show enfStep (seen, cnt) (Block.toolUse tu) = (seen, cnt) by
            simp [enfStep, READ_TOOL, h1, h2]]
      rw [ih ht seen cnt, blockToolUses_cons_toolUse]
      simp [enfEmit, READ_TOOL, h1, h2]
    | text s =>
      rw [blockToolUses_cons_other (Block.text s) t rfl] at h
      rw [show enfStep (seen, cnt) (Block.text s) = (seen, cnt) from rfl,
          ih h seen cnt, blockToolUses_cons_other (Block.text s) t rfl]
      simp [enfEmit]
    | serverToolUse i n =>
      rw [blockToolUses_cons_other (Block.serverToolUse i n) t rfl] at h
      rw [show enfStep (seen, cnt) (Block.serverToolUse i n) = (seen, cnt)
            from rfl,
          ih h seen cnt,
          blockToolUses_cons_other (Block.serverToolUse i n) t rfl]
      simp [enfEmit]
    | webSearchToolResult t2 =>
      rw [blockToolUses_cons_other (Block.webSearchToolResult t2) t rfl] at h
      rw [show enfStep (seen, cnt) (Block.webSearchToolResult t2) = (seen, cnt)
            from rfl,
          ih h seen cnt,
          blockToolUses_cons_other (Block.webSearchToolResult t2) t rfl]
      simp [enfEmit]
    | toolResultB r =>
      rw [blockToolUses_cons_other (Block.toolResultB r) t rfl] at h
      rw [show enfStep (seen, cnt) (Block.toolResultB r) = (seen, cnt)
            from rfl,
          ih h seen cnt, blockToolUses_cons_other (Block.toolResultB r) t rfl]
      simp [enfEmit]

/-- C6: A create-new-file (`either-write`) invocation never triggers read
injection and passes through the Enforcer unmodified (a turn of
`either-write` invocations is returned verbatim); the already-read set is
seeded empty on every call, so an edit of `P` with no read of `P` in its own
turn gets an injected read immediately before it even though nothing else is
known about earlier turns; in particular, in the concrete two-turn run where
turn 1 creates `src/App.tsx` and turn 2 edits it, the turn-2 assistant
message stored in history is the injected read followed by the edit. -/
theorem enforcer_create_passthrough_per_turn_seed :
    (∀ bs, (∀ tu ∈ blockToolUses bs, tu.name = "either-write") →
        injectReadBeforeWriteBlocks bs = (bs, blockToolUses bs))
    ∧ (∀ tu p, tu.name = "either-line-replace" →
        validPath? tu.input = some p →
        (injectReadBeforeWriteBlocks [Block.toolUse tu]).1
          = [Block.toolUse (injectedRead 0 p),
             Block.toolUse (annotateTU tu)])
    ∧ ((processRequest scenBcfg "build it").history.get? 3
        = some { role := Role.assistant,
                 content := MsgContent.list
                   [Block.toolUse (injectedRead 0 "src/App.tsx"),
                    Block.toolUse scenBedit] }) := by
  refine ⟨?_, ?_, by decide⟩
  · intro bs h
    exact enforceGo_writes bs h [] 0
  · intro tu p h2 hv
    show (enforceGo [Block.toolUse tu] [] 0).1 = _
    rw [show ([Block.toolUse tu] : List Block) = Block.toolUse tu :: [] from
          rfl,
        enforceGo_cons, enfEmit_edit tu [] 0 h2]
    simp [editInjection, hv, enforceGo]

/-- C6 witness: the C6 theorem applied to a concrete one-invocation create
turn and a concrete one-invocation edit turn. -/
theorem enforcer_create_passthrough_per_turn_seed_witness :
    (injectReadBeforeWriteBlocks [Block.toolUse (wrTU "w1" "x.js" "1")]
      = ([Block.toolUse (wrTU "w1" "x.js" "1")],
         blockToolUses [Block.toolUse (wrTU "w1" "x.js" "1")]))
    ∧ ((injectReadBeforeWriteBlocks [Block.toolUse (edTU "e9" "p.txt")]).1
        = [Block.toolUse (injectedRead 0 "p.txt"),
           Block.toolUse (annotateTU (edTU "e9" "p.txt"))]) := by
  have h := enforcer_create_passthrough_per_turn_seed
  exact ⟨h.1 _ (by decide), h.2.1 _ "p.txt" (by decide) (by decide)⟩

/-- C10 counterexample: `c10edit`'s input HAS a needle field (holding the
empty string), yet the enforcer changes its input by adding
`_enforcerWarning`, contradicting "invocations whose input has a needle pass
through with input unchanged". -/
theorem enforcer_needle_claim_counterexample :
    c10edit.input.needle = some ""
    ∧ (injectReadBeforeWriteBlocks [Block.toolUse c10edit]).2.get? 1
        = some { c10edit with
                 input := { c10edit.input with
                            enforcerWarning := some enforcerWarningText } }
    ∧ ({ c10edit with
         input := { c10edit.input with
                    enforcerWarning := some enforcerWarningText } }
          : ToolUse).input ≠ c10edit.input := by
  exact ⟨rfl, by decide, by decide⟩

/-- C10 (amended): the Enforcer adds `_enforcerWarning` to an
`either-line-replace` invocation's input exactly when the needle field is
absent or an empty string (JS-falsy), leaving `path`, `needle`, `content`
and the remaining fields unchanged; the annotation is applied to the edit's
image in the output independently of whether a synthetic read was injected
for it (the injected read, when any, merely precedes it). -/
theorem enforcer_needle_annotation (tu : ToolUse) :
    (needleFalsy tu.input = true →
      annotateNeedle tu.input
        = { tu.input with enforcerWarning := some enforcerWarningText })
    ∧ (needleFalsy tu.input = false → annotateNeedle tu.input = tu.input)
    ∧ ((annotateNeedle tu.input).path = tu.input.path
        ∧ (annotateNeedle tu.input).needle = tu.input.needle
        ∧ (annotateNeedle tu.input).content = tu.input.content
        ∧ (annotateNeedle tu.input).extra = tu.input.extra)
    ∧ (∀ l r, tu.name = "either-line-replace" →
        (injectReadBeforeWriteBlocks (l ++ Block.toolUse tu :: r)).1
          = (enforceGo l [] 0).1
            ++ editInjection tu (enfScan l [] 0)
            ++ Block.toolUse (annotateTU tu)
            :: (enforceGo r (enfStep (enfScan l [] 0) (Block.toolUse tu)).1
                 (enfStep (enfScan l [] 0) (Block.toolUse tu)).2).1) := by
  refine ⟨?_, ?_, ?_, ?_⟩
  · intro h; simp [annotateNeedle, h]
  · intro h; simp [annotateNeedle, h]
  · by_cases h : needleFalsy tu.input = true <;> simp [annotateNeedle, h]
  · intro l r h2
    exact congrArg Prod.fst (enforce_edit_decomp l tu r h2)

/-- C10 witness: the amended C10 theorem applied to a needle-less edit of
`q.txt` as the only block of its turn. -/
theorem enforcer_needle_annotation_witness :
    (annotateNeedle (edTU "w9" "q.txt").input
      = { (edTU "w9" "q.txt").input with
          enforcerWarning := some enforcerWarningText })
    ∧ ((injectReadBeforeWriteBlocks
          ([] ++ Block.toolUse (edTU "w9" "q.txt") :: [])).1
        = (enforceGo [] [] 0).1
          ++ editInjection (edTU "w9" "q.txt") (enfScan [] [] 0)
          ++ Block.toolUse (annotateTU (edTU "w9" "q.txt"))
          :: (enforceGo []
               (enfStep (enfScan [] [] 0)
                 (Block.toolUse (edTU "w9" "q.txt"))).1
               (enfStep (enfScan [] [] 0)
                 (Block.toolUse (edTU "w9" "q.txt"))).2).1) := by
  exact ⟨( enforcer_needle_annotation (edTU "w9" "q.txt")).1 (by decide),
         ( enforcer_needle_annotation (edTU "w9" "q.txt")).2.2.2 [] []
           (by decide)⟩

/-! ## Lemmas about the conversation-history validator -/

theorem validateGo_error_iff (total : Nat) (rest : List Message) :
    ∀ (k : Nat) (e : ValErr),
      validateGo total k rest = Except.error e
        ↔ firstBad total k rest = some e := by
  induction rest with
  | nil => intro k e; simp [validateGo, firstBad]
  | cons m t ih =>
    intro k e
    rcases hb : badMsg total k m with _ | kk
    · rcases hrec : validateGo total (k + 1) t with e2 | ws
      · simp [validateGo, firstBad, hb, hrec, ← ih]
      · simp [validateGo, firstBad, hb, hrec, ← ih, hrec]
    · simp [validateGo, firstBad, hb]

theorem validateGo_ok (total : Nat) (rest : List Message) :
    ∀ (k : Nat),
      (∀ j m, rest.get? j = some m → badMsg total (k + j) m = none) →
      validateGo total k rest = Except.ok (collectWarningsFrom k rest) := by
  induction rest with
  | nil => intro k _; simp [validateGo, collectWarningsFrom]
  | cons m t ih =>
    intro k h
    have hm : badMsg total k m = none := by
      have := h 0 m (by simp)
      simpa using this
    have ht : ∀ j m2, t.get? j = some m2 → badMsg total (k + 1 + j) m2 = none := by
      intro j m2 hj
      have := h (j + 1) m2 (by simpa using hj)
      simpa [Nat.add_assoc, Nat.add_comm 1 j] using this
    simp [validateGo, hm, ih (k + 1) ht, collectWarningsFrom]

theorem firstBad_none_iff (total : Nat) (rest : List Message) :
    ∀ (k : Nat),
      firstBad total k rest = none
        ↔ ∀ j m, rest.get? j = some m → badMsg total (k + j) m = none := by
  induction rest with
  | nil => intro k; simp [firstBad]
  | cons m t ih =>
    intro k
    rcases hb : badMsg total k m with _ | kk
    · rw [show firstBad total k (m :: t) = firstBad total (k + 1) t by
            simp [firstBad, hb]]
      rw [ih (k + 1)]
      constructor
      · intro h j m2 hj
        match j, hj with
        | 0, hj => simp at hj; subst hj; simpa using hb
        | j2 + 1, hj =>
          have := h j2 m2 (by simpa using hj)
          simpa [Nat.add_assoc, Nat.add_comm 1 j2] using this
      · intro h j m2 hj
        have := h (j + 1) m2 (by simpa using hj)
        simpa [Nat.add_assoc, Nat.add_comm 1 j] using this
    · simp [firstBad, hb]
      exact ⟨0, m, by simp, by simp [hb]⟩

theorem firstBad_some_spec (total : Nat) (rest : List Message) :
    ∀ (k : Nat) (e : ValErr),
      firstBad total k rest = some e →
      ∃ j m, rest.get? j = some m ∧ e.idx = k + j
        ∧ badMsg total e.idx m = some e.kind
        ∧ ∀ j2 m2, j2 < j → rest.get? j2 = some m2 →
            badMsg total (k + j2) m2 = none := by
  induction rest with
  | nil => intro k e h; simp [firstBad] at h
  | cons m t ih =>
    intro k e h
    rcases hb : badMsg total k m with _ | kk
    · rw [show firstBad total k (m :: t) = firstBad total (k + 1) t by
            simp [firstBad, hb]] at h
      obtain ⟨j, m2, hj, hidx, hbad, hmin⟩ := ih (k + 1) e h
      refine ⟨j + 1, m2, by simpa using hj, by omega, hbad, ?_⟩
      intro j2 m3 hlt hj2
      match j2, hj2 with
      | 0, hj2 => simp at hj2; subst hj2; simpa using hb
      | j3 + 1, hj2 =>
        have := hmin j3 m3 (by omega) (by simpa using hj2)
        simpa [Nat.add_assoc, Nat.add_comm 1 j3] using this
    · rw [show firstBad total k (m :: t) = some { idx := k, kind := kk } by
            simp [firstBad, hb]] at h
      have he2 : e = { idx := k, kind := kk } := by simpa using h.symm
      subst he2
      refine ⟨0, m, by simp, by simp, by simpa using hb, ?_⟩
      intro j2 m2 hlt _
      exact absurd hlt (Nat.not_lt_zero j2)

/-- C4: the Conversation History Validator raises a request-aborting error
exactly when some message's content is not a list, or some message has an
empty content list and is not the final message with role assistant; the
raised error cites the first offending message's index and its kind, and a
history with neither violation passes these checks. -/
theorem validator_aborts_iff (msgs : List Message) :
    ((∃ e, validateConversationHistory msgs = Except.error e)
        ↔ ∃ j m, msgs.get? j = some m ∧ (badMsg msgs.length j m).isSome)
    ∧ (∀ e, validateConversationHistory msgs = Except.error e →
        ∃ m, msgs.get? e.idx = some m
          ∧ badMsg msgs.length e.idx m = some e.kind
          ∧ ∀ j m2, j < e.idx → msgs.get? j = some m2 →
              badMsg msgs.length j m2 = none)
    ∧ (∀ total idx m, (badMsg total idx m).isSome
        ↔ ((∃ t, m.content = MsgContent.nonList t)
            ∨ (m.content = MsgContent.list []
               ∧ ¬(idx = total - 1 ∧ m.role = Role.assistant)))) := by
  refine ⟨?_, ?_, ?_⟩
  · constructor
    · rintro ⟨e, he⟩
      rw [show validateConversationHistory msgs
            = validateGo msgs.length 0 msgs from rfl,
          validateGo_error_iff msgs.length msgs 0 e] at he
      obtain ⟨j, m, hj, _, hbad, _⟩ :=
        firstBad_some_spec msgs.length msgs 0 e he
      exact ⟨j, m, hj, by
        rw [show e.idx = 0 + j by omega] at hbad
        simp [Nat.zero_add] at hbad
        simp [hbad]⟩
    · rintro ⟨j, m, hj, hbad⟩
      rcases he : validateConversationHistory msgs with e | ws
      · exact ⟨e, rfl⟩
      · exfalso
        rw [show validateConversationHistory msgs
              = validateGo msgs.length 0 msgs from rfl] at he
        have hnone : firstBad msgs.length 0 msgs = none := by
          rcases hfb : firstBad msgs.length 0 msgs with _ | e2
          · rfl
          · rw [← validateGo_error_iff msgs.length msgs 0 e2] at hfb
            rw [he] at hfb
            cases hfb
        rw [firstBad_none_iff msgs.length msgs 0] at hnone
        have := hnone j m hj
        simp [Nat.zero_add] at this
        rw [this] at hbad
        cases hbad
  · intro e he
    rw [show validateConversationHistory msgs
          = validateGo msgs.length 0 msgs from rfl,
        validateGo_error_iff msgs.length msgs 0 e] at he
    obtain ⟨j, m, hj, hidx, hbad, hmin⟩ :=
      firstBad_some_spec msgs.length msgs 0 e he
    have hj' : e.idx = j := by omega
    subst hj'
    refine ⟨m, hj, hbad, ?_⟩
    intro j2 m2 hlt hj2
    have := hmin j2 m2 hlt hj2
    simpa using this
  · intro total idx m
    rcases hm : m.content with bs | t
    · rcases bs with _ | ⟨b, bs2⟩
      · by_cases hcond : idx = total - 1 ∧ m.role = Role.assistant
        · simp [badMsg, hm, hcond]
        · simp [badMsg, hm, hcond]
          tauto
      · simp [badMsg, hm]
    · simp [badMsg, hm]

/-- C4 witness: the C4 theorem applied to the Scenario D history, whose
assistant message at index 1 carries a bare string as content. -/
theorem validator_aborts_iff_witness :
    ∃ m, scenDmsgs.get? 1 = some m
      ∧ badMsg scenDmsgs.length 1 m = some ValKind.nonArrayContent
      ∧ ∀ j m2, j < 1 → scenDmsgs.get? j = some m2 →
          badMsg scenDmsgs.length j m2 = none :=
  (validator_aborts_iff scenDmsgs).2.1
    { idx := 1, kind := ValKind.nonArrayContent } (by rfl)

theorem collectWarningsFrom_mem (w : ValWarning) (msgs : List Message) :
    ∀ (k i : Nat) (m : Message), msgs.get? i = some m →
      w ∈ msgWarnings (k + i) m → w ∈ collectWarningsFrom k msgs := by
  induction msgs with
  | nil => intro k i m hi; simp at hi
  | cons m2 t ih =>
    intro k i m hi hw
    match i, hi with
    | 0, hi =>
      simp at hi; subst hi
      simp [collectWarningsFrom]
      left; simpa using hw
    | i2 + 1, hi =>
      simp [collectWarningsFrom]
      right
      exact ih (k + 1) i2 m (by simpa using hi)
        (by simpa [Nat.add_assoc, Nat.add_comm 1 i2] using hw)

/-- C9: an assistant message holding a `server_tool_use` block with no
matching `web_search_tool_result` never makes the Validator raise: on a
history passing the fatal checks, validation returns `ok` carrying the
logged warnings of every message (so the traversal covered the whole
history and the model call proceeds), and every unmatched
`server_tool_use` contributes its warning. -/
theorem validator_server_tool_use_warning (msgs : List Message)
    (h : ∀ j m, msgs.get? j = some m → badMsg msgs.length j m = none) :
    validateConversationHistory msgs = Except.ok (collectWarnings msgs)
    ∧ (∀ i bs sid,
        msgs.get? i
          = some { role := Role.assistant, content := MsgContent.list bs } →
        sid ∈ unmatchedServerToolUses bs →
        ({ idx := i, toolUseId := sid } : ValWarning)
          ∈ collectWarnings msgs) := by
  constructor
  · rw [show validateConversationHistory msgs
        = validateGo msgs.length 0 msgs from rfl]
    rw [validateGo_ok msgs.length msgs 0 (by simpa using h)]
    rfl
  · intro i bs sid hi hs
    refine collectWarningsFrom_mem _ msgs 0 i _ hi ?_
    rw [show msgWarnings (0 + i)
          { role := Role.assistant, content := MsgContent.list bs }
        = (unmatchedServerToolUses bs).map
            (fun s => { idx := 0 + i, toolUseId := s }) from rfl]
    refine List.mem_map.mpr ⟨sid, hs, ?_⟩
    simp

/-- C9 witness: the C9 theorem applied to a concrete history whose first
message has an unmatched `server_tool_use`. -/
theorem validator_server_tool_use_warning_witness :
    validateConversationHistory c9msgs = Except.ok (collectWarnings c9msgs)
    ∧ ({ idx := 0, toolUseId := "srvtoolu_1" } : ValWarning)
        ∈ collectWarnings c9msgs := by
  have h := validator_server_tool_use_warning c9msgs (by
    intro j m hj
    match j, hj with
    | 0, hj =>
      simp [c9msgs] at hj
      subst hj
      rfl
    | 1, hj =>
      simp [c9msgs] at hj
      subst hj
      rfl
    | n + 2, hj => simp [c9msgs] at hj)
  refine ⟨h.1, ?_⟩
  exact h.2 0 [Block.text "searching",
               Block.serverToolUse "srvtoolu_1" "web_search"]
    "srvtoolu_1" (by rfl) (by decide)

/-! ## Lemmas about the turn loop -/

theorem deltaStep_fields (st : St) (hET : Bool) (d : String) :
    (deltaStep st hET d).1.history = st.history
    ∧ (deltaStep st hET d).1.turnCount = st.turnCount
    ∧ (deltaStep st hET d).1.sendCount = st.sendCount
    ∧ (deltaStep st hET d).1.finalResponse = st.finalResponse
    ∧ (deltaStep st hET d).1.changedFiles = st.changedFiles
    ∧ (deltaStep st hET d).1.hasExecutedTools = st.hasExecutedTools
    ∧ (deltaStep st hET d).1.justExecutedTools = st.justExecutedTools
    ∧ (deltaStep st hET d).1.isInSummaryPhase = st.isInSummaryPhase
    ∧ (deltaStep st hET d).1.fileOps = st.fileOps
    ∧ (deltaStep st hET d).1.filesCreated = st.filesCreated
    ∧ (deltaStep st hET d).1.missingLog = st.missingLog
    ∧ (deltaStep st hET d).1.valError = st.valError := by
  simp only [deltaStep]
  split <;> split <;> (try split) <;> simp_all

theorem deltasFold_fields (ds : List String) :
    ∀ (st : St) (hET : Bool),
      (deltasFold st hET ds).1.history = st.history
      ∧ (deltasFold st hET ds).1.turnCount = st.turnCount
      ∧ (deltasFold st hET ds).1.sendCount = st.sendCount
      ∧ (deltasFold st hET ds).1.finalResponse = st.finalResponse
      ∧ (deltasFold st hET ds).1.changedFiles = st.changedFiles
      ∧ (deltasFold st hET ds).1.hasExecutedTools = st.hasExecutedTools
      ∧ (deltasFold st hET ds).1.justExecutedTools = st.justExecutedTools
      ∧ (deltasFold st hET ds).1.isInSummaryPhase = st.isInSummaryPhase
      ∧ (deltasFold st hET ds).1.fileOps = st.fileOps
      ∧ (deltasFold st hET ds).1.filesCreated = st.filesCreated
      ∧ (deltasFold st hET ds).1.missingLog = st.missingLog
      ∧ (deltasFold st hET ds).1.valError = st.valError := by
  induction ds with
  | nil => intro st hET; simp [deltasFold]
  | cons d t ih =>
    intro st hET
    have h1 := deltaStep_fields st hET d
    have h2 := ih (deltaStep st hET d).1 (deltaStep st hET d).2
    rw [show deltasFold st hET (d :: t)
          = deltasFold (deltaStep st hET d).1 (deltaStep st hET d).2 t from
          rfl]
    obtain ⟨a1, a2, a3, a4, a5, a6, a7, a8, a9, a10, a11, a12⟩ := h1
    obtain ⟨b1, b2, b3, b4, b5, b6, b7, b8, b9, b10, b11, b12⟩ := h2
    exact ⟨b1.trans a1, b2.trans a2, b3.trans a3, b4.trans a4, b5.trans a5,
           b6.trans a6, b7.trans a7, b8.trans a8, b9.trans a9, b10.trans a10,
           b11.trans a11, b12.trans a12⟩

theorem deltasFold_thinking (ds : List String) :
    ∀ (st : St), st.isInThinkingPhase = true →
      deltasFold st true ds
        = ({ st with
             thinkingBuffer := ds.foldl (fun a b => a ++ b) st.thinkingBuffer },
           true) := by
  induction ds with
  | nil => intro st h; simp [deltasFold]
  | cons d t ih =>
    intro st h
    rw [show deltasFold st true (d :: t)
          = deltasFold (deltaStep st true d).1 (deltaStep st true d).2 t from
          rfl]
    rw [show deltaStep st true d
          = ({ st with thinkingBuffer := st.thinkingBuffer ++ d }, true) by
          simp [deltaStep, h]]
    rw [ih _ (by simp [h])]
    rfl

theorem deltasFold_summary (ds : List String) :
    ∀ (st : St), st.isInThinkingPhase = false → st.isInSummaryPhase = true →
      deltasFold st true ds
        = ({ st with
             summaryBuffer := ds.foldl (fun a b => a ++ b) st.summaryBuffer },
           true) := by
  induction ds with
  | nil => intro st h1 h2; simp [deltasFold]
  | cons d t ih =>
    intro st h1 h2
    rw [show deltasFold st true (d :: t)
          = deltasFold (deltaStep st true d).1 (deltaStep st true d).2 t from
          rfl]
    rw [show deltaStep st true d
          = ({ st with summaryBuffer := st.summaryBuffer ++ d }, true) by
          simp [deltaStep, h1, h2]]
    rw [ih _ (by simp [h1]) (by simp [h2])]
    rfl

theorem deltasFold_start (d : String) (ds : List String) (st : St)
    (h : st.isInThinkingPhase = false) :
    deltasFold st false (d :: ds)
      = ({ st with
           events := st.events ++ [Ev.phase StreamingPhase.thinking],
           isInThinkingPhase := true,
           thinkingBuffer :=
             ds.foldl (fun a b => a ++ b) (st.thinkingBuffer ++ d) },
         true) := by
  rw [show deltasFold st false (d :: ds)
        = deltasFold (deltaStep st false d).1 (deltaStep st false d).2 ds from
        rfl]
  rw [show deltaStep st false d
        = ({ st with
             events := st.events ++ [Ev.phase StreamingPhase.thinking],
             isInThinkingPhase := true,
             thinkingBuffer := st.thinkingBuffer ++ d }, true) by
        simp [deltaStep, h]]
  rw [deltasFold_thinking ds _ (by simp)]

theorem foldl_append_ne_empty (ds : List String) :
    ∀ (acc : String), acc ≠ "" →
      ds.foldl (fun a b => a ++ b) acc ≠ "" := by
  induction ds with
  | nil => intro acc h; simpa using h
  | cons d t ih =>
    intro acc h
    refine ih (acc ++ d) ?_
    intro hc
    apply h
    have := congrArg String.length hc
    simp [String.length_append] at this
    have hlen : acc.length = 0 := by omega
    cases acc with
    | mk cs => cases cs with
      | nil => rfl
      | cons c cs2 => simp [String.length] at hlen

theorem startSummaryIfNeeded_fields (st : St) :
    (startSummaryIfNeeded st).history = st.history
    ∧ (startSummaryIfNeeded st).turnCount = st.turnCount
    ∧ (startSummaryIfNeeded st).sendCount = st.sendCount
    ∧ (startSummaryIfNeeded st).events = st.events
    ∧ (startSummaryIfNeeded st).thinkingBuffer = st.thinkingBuffer
    ∧ (startSummaryIfNeeded st).isInThinkingPhase = st.isInThinkingPhase
    ∧ (startSummaryIfNeeded st).missingLog = st.missingLog
    ∧ (startSummaryIfNeeded st).valError = st.valError
    ∧ (startSummaryIfNeeded st).hasExecutedTools = st.hasExecutedTools := by
  simp only [startSummaryIfNeeded]
  split <;> simp

theorem thinkTransition_fields (cfg : AgentCfg) (tus : List ToolUse)
    (st : St) :
    (thinkTransition cfg tus st).history = st.history
    ∧ (thinkTransition cfg tus st).turnCount = st.turnCount
    ∧ (thinkTransition cfg tus st).sendCount = st.sendCount
    ∧ (thinkTransition cfg tus st).justExecutedTools = st.justExecutedTools
    ∧ (thinkTransition cfg tus st).isInSummaryPhase = st.isInSummaryPhase
    ∧ (thinkTransition cfg tus st).summaryBuffer = st.summaryBuffer
    ∧ (thinkTransition cfg tus st).missingLog = st.missingLog
    ∧ (thinkTransition cfg tus st).valError = st.valError
    ∧ (thinkTransition cfg tus st).hasExecutedTools = st.hasExecutedTools := by
  simp only [thinkTransition]
  split
  · simp
  · split <;> simp

theorem pushAssistant_fields (bs : List Block) (st : St) :
    (pushAssistant bs st).turnCount = st.turnCount
    ∧ (pushAssistant bs st).sendCount = st.sendCount
    ∧ (pushAssistant bs st).events = st.events
    ∧ (pushAssistant bs st).thinkingBuffer = st.thinkingBuffer
    ∧ (pushAssistant bs st).isInThinkingPhase = st.isInThinkingPhase
    ∧ (pushAssistant bs st).justExecutedTools = st.justExecutedTools
    ∧ (pushAssistant bs st).isInSummaryPhase = st.isInSummaryPhase
    ∧ (pushAssistant bs st).summaryBuffer = st.summaryBuffer
    ∧ (pushAssistant bs st).missingLog = st.missingLog
    ∧ (pushAssistant bs st).valError = st.valError
    ∧ (pushAssistant bs st).hasExecutedTools = st.hasExecutedTools
    ∧ ∃ m, (pushAssistant bs st).history = st.history ++ [m]
        ∧ ∃ bs2, m.content = MsgContent.list bs2 ∧ bs2 ≠ [] := by
  simp only [pushAssistant]
  split
  · simp
  · rename_i hbs
    simp
    simpa using hbs

theorem finishTurn_fields (cfg : AgentCfg) (tb : String) (st : St) :
    (finishTurn cfg tb st).history = st.history
    ∧ (finishTurn cfg tb st).turnCount = st.turnCount
    ∧ (finishTurn cfg tb st).sendCount = st.sendCount
    ∧ (finishTurn cfg tb st).missingLog = st.missingLog
    ∧ (finishTurn cfg tb st).valError = st.valError := by
  simp only [finishTurn]
  split <;> split <;> simp

theorem execTurn_fields (cfg : AgentCfg) (tus : List ToolUse) (st : St) :
    (execTurn cfg tus st).turnCount = st.turnCount
    ∧ (execTurn cfg tus st).sendCount = st.sendCount
    ∧ (execTurn cfg tus st).valError = st.valError
    ∧ (execTurn cfg tus st).thinkingBuffer = st.thinkingBuffer
    ∧ (execTurn cfg tus st).isInThinkingPhase = st.isInThinkingPhase
    ∧ (execTurn cfg tus st).justExecutedTools = true
    ∧ (execTurn cfg tus st).hasExecutedTools = true := by
  simp only [execTurn]
  split <;> simp

theorem loopIter_turnCount (cfg : AgentCfg) (st : St) :
    (loopIter cfg st).1.turnCount = st.turnCount + 1 := by
  simp only [loopIter]
  split
  · simp
  · split
    · simp [(finishTurn_fields _ _ _).2.1, (pushAssistant_fields _ _).1,
            (thinkTransition_fields _ _ _).2.1, (deltasFold_fields _ _ _).2.1,
            (startSummaryIfNeeded_fields _).2.1]
    · split <;>
        simp [(execTurn_fields _ _ _).1, (pushAssistant_fields _ _).1,
              (thinkTransition_fields _ _ _).2.1,
              (deltasFold_fields _ _ _).2.1,
              (startSummaryIfNeeded_fields _).2.1]

theorem loopIter_sendCount_le (cfg : AgentCfg) (st : St) :
    (loopIter cfg st).1.sendCount ≤ st.sendCount + 1 := by
  simp only [loopIter]
  split
  · simp
  · split
    · simp [(finishTurn_fields _ _ _).2.2.1, (pushAssistant_fields _ _).2.1,
            (thinkTransition_fields _ _ _).2.2.1,
            (deltasFold_fields _ _ _).2.2.1,
            (startSummaryIfNeeded_fields _).2.2.1]
    · split <;>
        simp [(execTurn_fields _ _ _).2.1, (pushAssistant_fields _ _).2.1,
              (thinkTransition_fields _ _ _).2.2.1,
              (deltasFold_fields _ _ _).2.2.1,
              (startSummaryIfNeeded_fields _).2.2.1]

theorem runLoop_sendCount_le (cfg : AgentCfg) :
    ∀ (fuel : Nat) (st : St),
      (runLoop cfg fuel st).sendCount ≤ st.sendCount + fuel := by
  intro fuel
  induction fuel with
  | zero => intro st; simp [runLoop]
  | succ n ih =>
    intro st
    simp only [runLoop]
    split
    · split
      · exact le_trans (loopIter_sendCount_le cfg st) (by omega)
      · refine le_trans (ih _) ?_
        have := loopIter_sendCount_le cfg st
        omega
    · omega

/-- C1: for every request, `processRequest` performs at most
`MAX_AGENT_TURNS` (the configured `maxTurns`) model round-trips — the
`sendCount` field counts exactly the `sendMessage` calls — no matter what
the model and tools return, so the turn loop cannot iterate beyond the
ceiling (it is total by construction, with the ceiling as the fuel). -/
theorem processRequest_turn_bound (cfg : AgentCfg) (u : String) :
    (processRequest cfg u).sendCount ≤ cfg.maxTurns := by
  have h := runLoop_sendCount_le cfg cfg.maxTurns
    ({ history := cfg.initialHistory
        ++ [{ role := Role.user, content := MsgContent.list [Block.text u] }] }
      : St)
  simp only [processRequest]
  split <;> simpa using h

theorem execOne_results (cfg : AgentCfg) (es : ExecSt) (tu : ToolUse) :
    (execOne cfg es tu).results = es.results ++ [cfg.execTool tu] := by
  rcases hv : validPath? tu.input with _ | p
  · simp [execOne, hv]
  · simp only [execOne, hv]
    repeat' split
    all_goals simp

theorem execToolsGo_results (cfg : AgentCfg) :
    ∀ (tus : List ToolUse) (es : ExecSt),
      (execToolsGo cfg tus es).results = es.results ++ tus.map cfg.execTool := by
  intro tus
  induction tus with
  | nil => intro es; simp [execToolsGo]
  | cons tu t ih =>
    intro es
    rw [show execToolsGo cfg (tu :: t) es
          = execToolsGo cfg t (execOne cfg es tu) from rfl,
        ih, execOne_results]
    simp

theorem appendToLast_ne_nil (w : String) :
    ∀ (rs : List ToolResult), rs ≠ [] → appendToLast w rs ≠ [] := by
  intro rs h
  cases rs with
  | nil => exact absurd rfl h
  | cons r t =>
    cases t with
    | nil => simp [appendToLast]
    | cons r2 t2 => simp [appendToLast]

theorem strictOk_append (a b : List Message) :
    strictOk (a ++ b) = (strictOk a && strictOk b) := by
  simp [strictOk, List.all_append]

theorem strictOk_push (h : List Message) (m : Message) (bs : List Block)
    (hh : strictOk h = true) (hm : m.content = MsgContent.list bs)
    (hbs : bs ≠ []) : strictOk (h ++ [m]) = true := by
  rw [strictOk_append, hh]
  simp [strictOk, hm, hbs]

theorem strictOk_badMsg (msgs : List Message) (h : strictOk msgs = true) :
    ∀ (total j : Nat) (m : Message), msgs.get? j = some m →
      badMsg total j m = none := by
  intro total j m hj
  have hm : m ∈ msgs := by
    have := List.get?_eq_some.mp hj
    obtain ⟨hlt, hget⟩ := this
    exact hget ▸ List.get_mem msgs _ hlt
  have hall := (List.all_eq_true.mp h) m hm
  rcases hc : m.content with bs | t
  · rw [hc] at hall
    simp at hall
    simp [badMsg, hc, hall]
  · rw [hc] at hall
    simp at hall

theorem validate_of_strictOk (msgs : List Message)
    (h : strictOk msgs = true) :
    validateConversationHistory msgs = Except.ok (collectWarnings msgs) := by
  rw [show validateConversationHistory msgs
        = validateGo msgs.length 0 msgs from rfl]
  rw [validateGo_ok msgs.length msgs 0
      (fun j m hj => by simpa using strictOk_badMsg msgs h msgs.length j m hj)]
  rfl

theorem loopIter_eq_of_ok (cfg : AgentCfg) (st : St) (ws : List ValWarning)
    (hval : validateConversationHistory st.history = Except.ok ws) :
    loopIter cfg st
      = (let st1 : St := { st with turnCount := st.turnCount + 1 }
         let hET0 := st1.justExecutedTools
         let st2 := startSummaryIfNeeded st1
         let resp := cfg.responses st2.turnCount
         let st3 : St := { st2 with sendCount := st2.sendCount + 1 }
         let st4 := (deltasFold st3 hET0 (deltasOf resp.content)).1
         let enforced := injectReadBeforeWriteBlocks resp.content
         let st5 := thinkTransition cfg enforced.2 st4
         let st6 := pushAssistant enforced.1 st5
         if enforced.2.isEmpty then
           (finishTurn cfg (joinedText resp.content) st6, true)
         else
           let st7 := execTurn cfg enforced.2 st6
           if resp.stopReason = some "end_turn" then (st7, false)
           else (st7, false)) := by
  simp only [loopIter]
  split
  · rename_i e heq
    rw [show validateConversationHistory
          ({ st with turnCount := st.turnCount + 1 } : St).history
        = validateConversationHistory st.history from rfl] at heq
    rw [hval] at heq
    cases heq
  · rfl

theorem loopIter_stop_iff (cfg : AgentCfg) (st : St)
    (h : strictOk st.history = true) :
    (loopIter cfg st).2
      = (injectReadBeforeWriteBlocks
          (cfg.responses (st.turnCount + 1)).content).2.isEmpty := by
  rw [loopIter_eq_of_ok cfg st _ (validate_of_strictOk st.history h)]
  simp only [(startSummaryIfNeeded_fields _).2.1]
  split
  · rename_i hc
    show true = _
    exact hc.symm
  · rename_i hc
    rw [Bool.not_eq_true] at hc
    split <;> (show false = _; exact hc.symm)

theorem loopIter_sendCount_eq (cfg : AgentCfg) (st : St)
    (h : strictOk st.history = true) :
    (loopIter cfg st).1.sendCount = st.sendCount + 1 := by
  rw [loopIter_eq_of_ok cfg st _ (validate_of_strictOk st.history h)]
  simp only [(startSummaryIfNeeded_fields _).2.1]
  split
  · simp [(finishTurn_fields _ _ _).2.2.1, (pushAssistant_fields _ _).2.1,
          (thinkTransition_fields _ _ _).2.2.1,
          (deltasFold_fields _ _ _).2.2.1,
          (startSummaryIfNeeded_fields _).2.2.1]
  · split <;>
      simp [(execTurn_fields _ _ _).2.1, (pushAssistant_fields _ _).2.1,
            (thinkTransition_fields _ _ _).2.2.1,
            (deltasFold_fields _ _ _).2.2.1,
            (startSummaryIfNeeded_fields _).2.2.1]

theorem execTurn_history (cfg : AgentCfg) (tus : List ToolUse) (st : St)
    (htus : tus ≠ []) :
    ∃ m bs2, (execTurn cfg tus st).history = st.history ++ [m]
      ∧ m.content = MsgContent.list bs2 ∧ bs2 ≠ [] := by
  simp only [execTurn]
  split
  · refine ⟨_, _, rfl, rfl, ?_⟩
    simp [htus]
  · refine ⟨_, _, rfl, rfl, ?_⟩
    have hres : (execToolsGo cfg tus
        { fileOps := st.fileOps, filesCreated := st.filesCreated,
          newOps := [], events := st.events
            ++ [Ev.phase StreamingPhase.codeWriting], results := [] }).results
        = tus.map cfg.execTool := by
      simpa using execToolsGo_results cfg tus _
    rw [hres]
    split
    · simp [htus]
    · have hne : appendToLast
          (missingWarning
            (checkMissingFileReferences tus
              (createdFilesOf (tus.map cfg.execTool))
              (tus.map cfg.execTool)))
          (tus.map cfg.execTool) ≠ [] :=
        appendToLast_ne_nil _ _ (by simp [htus])
      simp [hne]

theorem loopIter_sendCount_ge (cfg : AgentCfg) (st : St) :
    st.sendCount ≤ (loopIter cfg st).1.sendCount := by
  rcases hval : validateConversationHistory st.history with e | ws
  · simp only [loopIter]
    split
    · simp
    · rename_i ws2 heq
      rw [show validateConversationHistory
            ({ st with turnCount := st.turnCount + 1 } : St).history
          = validateConversationHistory st.history from rfl, hval] at heq
      cases heq
  · rw [loopIter_eq_of_ok cfg st ws hval]
    dsimp only
    split
    · simp [(finishTurn_fields _ _ _).2.2.1, (pushAssistant_fields _ _).2.1,
            (thinkTransition_fields _ _ _).2.2.1,
            (deltasFold_fields _ _ _).2.2.1,
            (startSummaryIfNeeded_fields _).2.2.1]
    · split <;>
        simp [(execTurn_fields _ _ _).2.1, (pushAssistant_fields _ _).2.1,
              (thinkTransition_fields _ _ _).2.2.1,
              (deltasFold_fields _ _ _).2.2.1,
              (startSummaryIfNeeded_fields _).2.2.1]

theorem runLoop_sendCount_ge (cfg : AgentCfg) (f : Nat) (st : St) :
    st.sendCount ≤ (runLoop cfg f st).sendCount := by
  induction f generalizing st with
  | zero => exact Nat.le_refl _
  | succ k ih =>
    simp only [runLoop]
    split
    · split
      · exact loopIter_sendCount_ge cfg st
      · exact Nat.le_trans (loopIter_sendCount_ge cfg st) (ih _)
    · exact Nat.le_refl _

theorem strictOk_finish_push (cfg : AgentCfg) (tb : String) (bs : List Block)
    (x : St) (h : strictOk x.history = true) :
    strictOk (finishTurn cfg tb (pushAssistant bs x)).history = true := by
  rw [(finishTurn_fields _ _ _).1]
  obtain ⟨m, hmh, bs2, hbs2, hne⟩ :=
    (pushAssistant_fields bs x).2.2.2.2.2.2.2.2.2.2.2
  rw [hmh]
  exact strictOk_push _ m bs2 h hbs2 hne

theorem strictOk_exec_push (cfg : AgentCfg) (tus : List ToolUse)
    (bs : List Block) (x : St) (h : strictOk x.history = true)
    (htus : tus ≠ []) :
    strictOk (execTurn cfg tus (pushAssistant bs x)).history = true := by
  obtain ⟨m, hmh, bs2, hbs2, hne⟩ :=
    (pushAssistant_fields bs x).2.2.2.2.2.2.2.2.2.2.2
  obtain ⟨m2, bs3, hmh2, hbs3, hne3⟩ :=
    execTurn_history cfg tus (pushAssistant bs x) htus
  rw [hmh2, hmh]
  have h1 : strictOk (x.history ++ [m]) = true :=
    strictOk_push _ m bs2 h hbs2 hne
  exact strictOk_push _ m2 bs3 h1 hbs3 hne3

theorem loopIter_strictOk (cfg : AgentCfg) (st : St)
    (h : strictOk st.history = true) :
    strictOk (loopIter cfg st).1.history = true := by
  rw [loopIter_eq_of_ok cfg st _ (validate_of_strictOk st.history h)]
  dsimp only
  split
  · apply strictOk_finish_push
    rw [(thinkTransition_fields _ _ _).1, (deltasFold_fields _ _ _).1]
    simpa [(startSummaryIfNeeded_fields _).1] using h
  · rename_i hc
    split <;>
      (refine strictOk_exec_push _ _ _ _ ?_ (by simpa using hc)
       rw [(thinkTransition_fields _ _ _).1, (deltasFold_fields _ _ _).1]
       simpa [(startSummaryIfNeeded_fields _).1] using h)

theorem str_isEmpty_false {s : String} (h : s ≠ "") : s.isEmpty = false := by
  rw [Bool.eq_false_iff]
  intro hc
  exact h ((String.isEmpty_iff s).mp hc)

theorem str_append_ne {a d : String} (hd : d ≠ "") : a ++ d ≠ "" := by
  intro hc
  apply hd
  have := congrArg String.length hc
  simp [String.length_append] at this
  have hlen : d.length = 0 := by omega
  cases d with
  | mk cs => cases cs with
    | nil => rfl
    | cons c cs2 => simp [String.length] at hlen

theorem deltasOf_ne_empty {bs : List Block} {s : String}
    (h : s ∈ deltasOf bs) : s ≠ "" := by
  simp only [deltasOf, List.mem_filter] at h
  simpa using h.2

theorem phasesOf_append (a b : List Ev) :
    phasesOf (a ++ b) = phasesOf a ++ phasesOf b := by
  simp [phasesOf]

theorem phasesOf_map_reasoningDelta (l : List String) :
    phasesOf (l.map Ev.reasoningDelta) = [] := by
  induction l <;> simp_all [phasesOf]

theorem phasesOf_map_delta (l : List String) :
    phasesOf (l.map Ev.delta) = [] := by
  induction l <;> simp_all [phasesOf]

theorem execOne_phases (cfg : AgentCfg) (es : ExecSt) (tu : ToolUse) :
    phasesOf (execOne cfg es tu).events = phasesOf es.events := by
  rcases hfp : validPath? tu.input with _ | p
  · simp [execOne, hfp, phasesOf_append, phasesOf]
  · simp only [execOne, hfp]
    repeat' split
    all_goals simp [phasesOf_append, phasesOf]

theorem execToolsGo_phases (cfg : AgentCfg) (tus : List ToolUse) :
    ∀ (es : ExecSt),
      phasesOf (execToolsGo cfg tus es).events = phasesOf es.events := by
  induction tus with
  | nil => intro es; rfl
  | cons tu t ih =>
    intro es
    rw [show execToolsGo cfg (tu :: t) es
          = execToolsGo cfg t (execOne cfg es tu) from rfl]
    rw [ih (execOne cfg es tu), execOne_phases]

theorem execTurn_phases (cfg : AgentCfg) (tus : List ToolUse) (st : St) :
    phasesOf (execTurn cfg tus st).events
      = phasesOf st.events ++ [StreamingPhase.codeWriting] := by
  simp only [execTurn]
  split
  · simp [phasesOf_append, phasesOf]
  · dsimp only
    rw [execToolsGo_phases]
    simp [phasesOf_append, phasesOf]

theorem startSummaryIfNeeded_noop (st : St)
    (h : st.justExecutedTools = false) : startSummaryIfNeeded st = st := by
  simp [startSummaryIfNeeded, h]

theorem startSummaryIfNeeded_on (st : St)
    (h : st.justExecutedTools = true) :
    startSummaryIfNeeded st
      = { st with isInSummaryPhase := true, summaryBuffer := "",
                  justExecutedTools := false } := by
  simp [startSummaryIfNeeded, h]

theorem thinkTransition_noop (cfg : AgentCfg) (tus : List ToolUse) (st : St)
    (h : st.isInThinkingPhase = false) : thinkTransition cfg tus st = st := by
  simp [thinkTransition, h]

theorem thinkTransition_reasoning (cfg : AgentCfg) (tus : List ToolUse)
    (st : St) (h1 : st.isInThinkingPhase = true)
    (h2 : st.thinkingBuffer ≠ "") (h3 : tus ≠ []) :
    thinkTransition cfg tus st
      = { st with
            isInThinkingPhase := false,
            events := st.events
                ++ [Ev.thinkingComplete, Ev.phase StreamingPhase.reasoning]
                ++ (chunkString cfg.chunkSize st.thinkingBuffer).map
                  Ev.reasoningDelta,
            thinkingBuffer := "" } := by
  simp [thinkTransition, h1, str_isEmpty_false h2, h3]

theorem thinkTransition_flush (cfg : AgentCfg) (st : St)
    (h1 : st.isInThinkingPhase = true) (h2 : st.thinkingBuffer ≠ "") :
    thinkTransition cfg [] st
      = { st with
            isInThinkingPhase := false,
            events := st.events ++ [Ev.delta st.thinkingBuffer],
            thinkingBuffer := "" } := by
  simp [thinkTransition, h1, str_isEmpty_false h2]

theorem finishTurn_events_building (cfg : AgentCfg) (tb : String) (st : St)
    (h1 : st.isInSummaryPhase = true) (h2 : st.summaryBuffer ≠ "") :
    (finishTurn cfg tb st).events
      = st.events ++ [Ev.phase StreamingPhase.building]
        ++ (chunkString cfg.chunkSize st.summaryBuffer).map Ev.delta := by
  simp only [finishTurn]
  rw [show ({ st with finalResponse := tb } : St).isInSummaryPhase
        = true from h1]
  simp only [str_isEmpty_false h2]
  split
  · split <;> simp
  · rename_i hcond
    simp at hcond

theorem finishTurn_events_plain (cfg : AgentCfg) (tb : String) (st : St)
    (h1 : st.isInSummaryPhase = false) :
    (finishTurn cfg tb st).events = st.events := by
  simp only [finishTurn]
  rw [show ({ st with finalResponse := tb } : St).isInSummaryPhase
        = false from h1]
  simp only [Bool.false_and]
  split
  · rename_i hcond
    simp at hcond
  · split <;> simp

theorem loopIter_first (cfg : AgentCfg) (st : St)
    (h : strictOk st.history = true)
    (hJ : st.justExecutedTools = false)
    (hT : st.isInThinkingPhase = false)
    (hd : deltasOf (cfg.responses (st.turnCount + 1)).content ≠ [])
    (ht : (injectReadBeforeWriteBlocks
        (cfg.responses (st.turnCount + 1)).content).2 ≠ []) :
    phasesOf (loopIter cfg st).1.events
      = phasesOf st.events
        ++ [StreamingPhase.thinking, StreamingPhase.reasoning,
            StreamingPhase.codeWriting]
    ∧ (loopIter cfg st).1.justExecutedTools = true
    ∧ (loopIter cfg st).1.isInThinkingPhase = false
    ∧ (loopIter cfg st).1.valError = st.valError
    ∧ (loopIter cfg st).2 = false := by
  rcases hdd : deltasOf (cfg.responses (st.turnCount + 1)).content
    with _ | ⟨d, ds⟩
  · exact absurd hdd hd
  have hdne : d ≠ "" :=
    deltasOf_ne_empty (by rw [hdd]; exact List.mem_cons_self d ds)
  have hfold : ∀ acc : String,
      ds.foldl (fun a b => a ++ b) (acc ++ d) ≠ "" :=
    fun acc => foldl_append_ne_empty ds _ (str_append_ne hdne)
  have hie : (injectReadBeforeWriteBlocks
      (cfg.responses (st.turnCount + 1)).content).2.isEmpty = false := by
    rcases hl : (injectReadBeforeWriteBlocks
        (cfg.responses (st.turnCount + 1)).content).2 with _ | ⟨a, l⟩
    · exact absurd hl ht
    · rfl
  rw [loopIter_eq_of_ok cfg st _ (validate_of_strictOk st.history h)]
  dsimp only
  rw [startSummaryIfNeeded_noop ({ st with turnCount := st.turnCount + 1 } : St) hJ]
  dsimp only
  rw [hdd]
  simp only [hJ, hT, deltasFold_start,
    thinkTransition_reasoning, hfold, ht, ne_eq, not_false_eq_true]
  rw [if_neg (by simp [hie]), ite_self]
  refine ⟨?_, ?_, ?_, ?_, rfl⟩
  · rw [execTurn_phases, (pushAssistant_fields _ _).2.2.1]
    simp [phasesOf_append, phasesOf, phasesOf_map_reasoningDelta]
  · simp [(execTurn_fields _ _ _).2.2.2.2.2.1]
  · rw [(execTurn_fields _ _ _).2.2.2.2.1,
        (pushAssistant_fields _ _).2.2.2.2.1]
  · rw [(execTurn_fields _ _ _).2.2.1,
        (pushAssistant_fields _ _).2.2.2.2.2.2.2.2.2.1]

theorem loopIter_mid (cfg : AgentCfg) (st : St)
    (h : strictOk st.history = true)
    (hJ : st.justExecutedTools = true)
    (hT : st.isInThinkingPhase = false)
    (ht : (injectReadBeforeWriteBlocks
        (cfg.responses (st.turnCount + 1)).content).2 ≠ []) :
    phasesOf (loopIter cfg st).1.events
      = phasesOf st.events ++ [StreamingPhase.codeWriting]
    ∧ (loopIter cfg st).1.justExecutedTools = true
    ∧ (loopIter cfg st).1.isInThinkingPhase = false
    ∧ (loopIter cfg st).1.valError = st.valError
    ∧ (loopIter cfg st).2 = false := by
  have hie : (injectReadBeforeWriteBlocks
      (cfg.responses (st.turnCount + 1)).content).2.isEmpty = false := by
    rcases hl : (injectReadBeforeWriteBlocks
        (cfg.responses (st.turnCount + 1)).content).2 with _ | ⟨a, l⟩
    · exact absurd hl ht
    · rfl
  rw [loopIter_eq_of_ok cfg st _ (validate_of_strictOk st.history h)]
  dsimp only
  rw [startSummaryIfNeeded_on ({ st with turnCount := st.turnCount + 1 } : St) hJ]
  dsimp only
  simp only [hJ, hT, deltasFold_summary, thinkTransition_noop]
  rw [if_neg (by simp [hie]), ite_self]
  refine ⟨?_, ?_, ?_, ?_, rfl⟩
  · rw [execTurn_phases, (pushAssistant_fields _ _).2.2.1]
  · simp [(execTurn_fields _ _ _).2.2.2.2.2.1]
  · rw [(execTurn_fields _ _ _).2.2.2.2.1,
        (pushAssistant_fields _ _).2.2.2.2.1]
  · rw [(execTurn_fields _ _ _).2.2.1,
        (pushAssistant_fields _ _).2.2.2.2.2.2.2.2.2.1]

theorem loopIter_last (cfg : AgentCfg) (st : St)
    (h : strictOk st.history = true)
    (hJ : st.justExecutedTools = true)
    (hT : st.isInThinkingPhase = false)
    (hd : deltasOf (cfg.responses (st.turnCount + 1)).content ≠ [])
    (ht : (injectReadBeforeWriteBlocks
        (cfg.responses (st.turnCount + 1)).content).2 = []) :
    phasesOf (loopIter cfg st).1.events
      = phasesOf st.events ++ [StreamingPhase.building]
    ∧ (loopIter cfg st).1.valError = st.valError
    ∧ (loopIter cfg st).2 = true := by
  rcases hdd : deltasOf (cfg.responses (st.turnCount + 1)).content
    with _ | ⟨d, ds⟩
  · exact absurd hdd hd
  have hdne : d ≠ "" :=
    deltasOf_ne_empty (by rw [hdd]; exact List.mem_cons_self d ds)
  have hb : List.foldl (fun a b : String => a ++ b) "" (d :: ds) ≠ "" := by
    show List.foldl (fun a b : String => a ++ b) ("" ++ d) ds ≠ ""
    exact foldl_append_ne_empty ds _ (str_append_ne hdne)
  rw [loopIter_eq_of_ok cfg st _ (validate_of_strictOk st.history h)]
  dsimp only
  rw [startSummaryIfNeeded_on ({ st with turnCount := st.turnCount + 1 } : St) hJ]
  dsimp only
  rw [hdd]
  simp only [hJ, hT, deltasFold_summary, thinkTransition_noop]
  rw [if_pos (by simp [ht])]
  refine ⟨?_, ?_, rfl⟩
  · simp only [finishTurn_events_building,
      (pushAssistant_fields _ _).2.2.2.2.2.2.1,
      (pushAssistant_fields _ _).2.2.2.2.2.2.2.1,
      (pushAssistant_fields _ _).2.2.1, hb, ne_eq, not_false_eq_true]
    simp [phasesOf_append, phasesOf, phasesOf_map_delta]
  · rw [show (finishTurn _ _ _).valError = _ from
        (finishTurn_fields _ _ _).2.2.2.2,
        (pushAssistant_fields _ _).2.2.2.2.2.2.2.2.2.1]

theorem loopIter_firstNoTool (cfg : AgentCfg) (st : St)
    (h : strictOk st.history = true)
    (hJ : st.justExecutedTools = false)
    (hT : st.isInThinkingPhase = false)
    (hS : st.isInSummaryPhase = false)
    (hd : deltasOf (cfg.responses (st.turnCount + 1)).content ≠ [])
    (ht : (injectReadBeforeWriteBlocks
        (cfg.responses (st.turnCount + 1)).content).2 = []) :
    phasesOf (loopIter cfg st).1.events
      = phasesOf st.events ++ [StreamingPhase.thinking]
    ∧ (loopIter cfg st).1.valError = st.valError
    ∧ (loopIter cfg st).2 = true := by
  rcases hdd : deltasOf (cfg.responses (st.turnCount + 1)).content
    with _ | ⟨d, ds⟩
  · exact absurd hdd hd
  have hdne : d ≠ "" :=
    deltasOf_ne_empty (by rw [hdd]; exact List.mem_cons_self d ds)
  have hfold : ∀ acc : String,
      ds.foldl (fun a b => a ++ b) (acc ++ d) ≠ "" :=
    fun acc => foldl_append_ne_empty ds _ (str_append_ne hdne)
  rw [loopIter_eq_of_ok cfg st _ (validate_of_strictOk st.history h)]
  dsimp only
  rw [startSummaryIfNeeded_noop ({ st with turnCount := st.turnCount + 1 } : St) hJ]
  dsimp only
  rw [hdd]
  simp only [hJ, hT, hS, ht, deltasFold_start, thinkTransition_flush, hfold,
    ne_eq, not_false_eq_true]
  rw [if_pos (by simp)]
  refine ⟨?_, ?_, rfl⟩
  · simp only [finishTurn_events_plain,
      (pushAssistant_fields _ _).2.2.2.2.2.2.1,
      (pushAssistant_fields _ _).2.2.1]
    simp [phasesOf_append, phasesOf]
  · rw [show (finishTurn _ _ _).valError = _ from
        (finishTurn_fields _ _ _).2.2.2.2,
        (pushAssistant_fields _ _).2.2.2.2.2.2.2.2.2.1]

theorem runLoop_mid_phases (cfg : AgentCfg) (m : Nat) :
    ∀ (f : Nat) (st : St),
      strictOk st.history = true →
      st.justExecutedTools = true →
      st.isInThinkingPhase = false →
      (∀ i, i < m →
        (injectReadBeforeWriteBlocks
          (cfg.responses (st.turnCount + 1 + i)).content).2 ≠ []) →
      deltasOf (cfg.responses (st.turnCount + 1 + m)).content ≠ [] →
      (injectReadBeforeWriteBlocks
        (cfg.responses (st.turnCount + 1 + m)).content).2 = [] →
      st.turnCount + m < cfg.maxTurns →
      m + 1 ≤ f →
      phasesOf (runLoop cfg f st).events
        = phasesOf st.events
          ++ List.replicate m StreamingPhase.codeWriting
          ++ [StreamingPhase.building]
      ∧ (runLoop cfg f st).valError = st.valError := by
  induction m with
  | zero =>
    intro f st h hJ hT htools hd hnd hceil hf
    obtain ⟨f2, rfl⟩ : ∃ f2, f = f2 + 1 := ⟨f - 1, by omega⟩
    simp only [runLoop]
    rw [if_pos (show st.turnCount < cfg.maxTurns by omega)]
    obtain ⟨p1, p2, p3⟩ := loopIter_last cfg st h hJ hT
      (by simpa using hd) (by simpa using hnd)
    rw [if_pos p3]
    exact ⟨by rw [p1]; simp, p2⟩
  | succ m ih =>
    intro f st h hJ hT htools hd hnd hceil hf
    obtain ⟨f2, rfl⟩ : ∃ f2, f = f2 + 1 := ⟨f - 1, by omega⟩
    simp only [runLoop]
    rw [if_pos (show st.turnCount < cfg.maxTurns by omega)]
    have ht0 : (injectReadBeforeWriteBlocks
        (cfg.responses (st.turnCount + 1)).content).2 ≠ [] := by
      simpa using htools 0 (by omega)
    obtain ⟨p1, p2, p3, p4, p5⟩ := loopIter_mid cfg st h hJ hT ht0
    rw [if_neg (by simp [p5])]
    have htc : (loopIter cfg st).1.turnCount = st.turnCount + 1 :=
      loopIter_turnCount cfg st
    obtain ⟨q1, q2⟩ := ih f2 (loopIter cfg st).1
      (loopIter_strictOk cfg st h) p2 p3
      (fun i hi => by
        rw [htc, show st.turnCount + 1 + 1 + i = st.turnCount + 1 + (i + 1)
          by omega]
        exact htools (i + 1) (by omega))
      (by
        rw [htc, show st.turnCount + 1 + 1 + m = st.turnCount + 1 + (m + 1)
          by omega]
        exact hd)
      (by
        rw [htc, show st.turnCount + 1 + 1 + m = st.turnCount + 1 + (m + 1)
          by omega]
        exact hnd)
      (by rw [htc]; omega)
      (by omega)
    refine ⟨?_, q2.trans p4⟩
    rw [q1, p1]
    simp [List.replicate_succ]

theorem runLoop_phases_tools (cfg : AgentCfg) (k : Nat) (st : St) (f : Nat)
    (hk : 1 ≤ k)
    (h : strictOk st.history = true)
    (h0 : st.turnCount = 0)
    (hJ : st.justExecutedTools = false)
    (hT : st.isInThinkingPhase = false)
    (htext1 : deltasOf (cfg.responses 1).content ≠ [])
    (htools : ∀ n, 1 ≤ n → n ≤ k →
      (injectReadBeforeWriteBlocks (cfg.responses n).content).2 ≠ [])
    (htextend : deltasOf (cfg.responses (k + 1)).content ≠ [])
    (hnot : (injectReadBeforeWriteBlocks
      (cfg.responses (k + 1)).content).2 = [])
    (hceil : k + 1 ≤ cfg.maxTurns)
    (hf : k + 1 ≤ f) :
    phasesOf (runLoop cfg f st).events
      = phasesOf st.events
        ++ [StreamingPhase.thinking, StreamingPhase.reasoning]
        ++ List.replicate k StreamingPhase.codeWriting
        ++ [StreamingPhase.building]
    ∧ (runLoop cfg f st).valError = st.valError := by
  obtain ⟨j, rfl⟩ : ∃ j, k = j + 1 := ⟨k - 1, by omega⟩
  obtain ⟨f2, rfl⟩ : ∃ f2, f = f2 + 1 := ⟨f - 1, by omega⟩
  simp only [runLoop]
  rw [if_pos (show st.turnCount < cfg.maxTurns by omega)]
  obtain ⟨p1, p2, p3, p4, p5⟩ := loopIter_first cfg st h hJ hT
    (by rw [h0]; simpa using htext1)
    (by rw [h0]; simpa using htools 1 (by omega) (by omega))
  rw [if_neg (by simp [p5])]
  have htc : (loopIter cfg st).1.turnCount = 1 := by
    rw [loopIter_turnCount, h0]
  obtain ⟨q1, q2⟩ := runLoop_mid_phases cfg j f2 (loopIter cfg st).1
    (loopIter_strictOk cfg st h) p2 p3
    (fun i hi => by
      rw [htc]
      exact htools (1 + 1 + i) (by omega) (by omega))
    (by rw [htc, show 1 + 1 + j = j + 1 + 1 by omega]; exact htextend)
    (by rw [htc, show 1 + 1 + j = j + 1 + 1 by omega]; exact hnot)
    (by rw [htc]; omega)
    (by omega)
  refine ⟨?_, q2.trans p4⟩
  rw [q1, p1]
  simp [List.replicate_succ]

theorem processRequest_phases_tools (cfg : AgentCfg) (u : String) (k : Nat)
    (hk : 1 ≤ k)
    (hinit : strictOk cfg.initialHistory = true)
    (htext1 : deltasOf (cfg.responses 1).content ≠ [])
    (htools : ∀ n, 1 ≤ n → n ≤ k →
      (injectReadBeforeWriteBlocks (cfg.responses n).content).2 ≠ [])
    (htextend : deltasOf (cfg.responses (k + 1)).content ≠ [])
    (hnot : (injectReadBeforeWriteBlocks
      (cfg.responses (k + 1)).content).2 = [])
    (hceil : k + 1 ≤ cfg.maxTurns) :
    phasesOf (processRequest cfg u).events
      = [StreamingPhase.thinking, StreamingPhase.reasoning]
        ++ List.replicate k StreamingPhase.codeWriting
        ++ [StreamingPhase.building, StreamingPhase.completed] := by
  have hst : strictOk (cfg.initialHistory
      ++ [({ role := Role.user,
             content := MsgContent.list [Block.text u] } : Message)]) = true := by
    rw [strictOk_append, hinit]
    simp [strictOk]
  obtain ⟨q1, q2⟩ := runLoop_phases_tools cfg k
    ({ history := cfg.initialHistory
        ++ [({ role := Role.user,
               content := MsgContent.list [Block.text u] } : Message)] } : St)
    cfg.maxTurns hk hst rfl rfl rfl htext1 htools htextend hnot hceil hceil
  simp only [processRequest]
  rw [show (runLoop cfg cfg.maxTurns
      ({ history := cfg.initialHistory
          ++ [({ role := Role.user,
                 content := MsgContent.list [Block.text u] } : Message)] } : St)).valError
    = none from q2.trans rfl]
  dsimp only
  rw [phasesOf_append, q1]
  simp [phasesOf]

theorem processRequest_phases_noTools (cfg : AgentCfg) (u : String)
    (hinit : strictOk cfg.initialHistory = true)
    (htext1 : deltasOf (cfg.responses 1).content ≠ [])
    (hnt : (injectReadBeforeWriteBlocks (cfg.responses 1).content).2 = [])
    (hm : 1 ≤ cfg.maxTurns) :
    phasesOf (processRequest cfg u).events
      = [StreamingPhase.thinking, StreamingPhase.completed] := by
  have hst : strictOk (cfg.initialHistory
      ++ [({ role := Role.user,
             content := MsgContent.list [Block.text u] } : Message)]) = true := by
    rw [strictOk_append, hinit]
    simp [strictOk]
  obtain ⟨p1, p2, p3⟩ := loopIter_firstNoTool cfg
    ({ history := cfg.initialHistory
        ++ [({ role := Role.user,
               content := MsgContent.list [Block.text u] } : Message)] } : St)
    hst rfl rfl rfl (by simpa using htext1) (by simpa using hnt)
  obtain ⟨f2, hfm⟩ : ∃ f2, cfg.maxTurns = f2 + 1 := ⟨cfg.maxTurns - 1, by omega⟩
  simp only [processRequest]
  rw [hfm]
  simp only [runLoop]
  rw [if_pos (show 0 < cfg.maxTurns by omega)]
  rw [if_pos p3]
  rw [show (loopIter cfg
      ({ history := cfg.initialHistory
          ++ [({ role := Role.user,
                 content := MsgContent.list [Block.text u] } : Message)] } : St)).1.valError
    = none from p2.trans rfl]
  dsimp only
  rw [phasesOf_append, p1]
  simp [phasesOf]

/-- C2: after a turn whose enforced content yields executable tool
invocations, the loop issues another model round-trip (two sends happen
whenever fuel and the turn ceiling allow a second), and the decision to
continue is insensitive to the response's stated stop reason; before the
ceiling, an iteration stops the loop exactly when the enforced content of
the turn's response yields zero executable tool invocations. -/
theorem loop_requery_and_stop (cfg : AgentCfg) (st : St)
    (h : strictOk st.history = true) :
    (∀ sr, (loopIter (withStopReason cfg (st.turnCount + 1) sr) st).2
        = (loopIter cfg st).2)
    ∧ ((loopIter cfg st).2 = true
        ↔ (injectReadBeforeWriteBlocks
            (cfg.responses (st.turnCount + 1)).content).2 = [])
    ∧ (∀ f, 2 ≤ f → st.turnCount + 1 < cfg.maxTurns →
        (injectReadBeforeWriteBlocks
          (cfg.responses (st.turnCount + 1)).content).2 ≠ [] →
        st.sendCount + 2 ≤ (runLoop cfg f st).sendCount) := by
  have hiff : ∀ (l : List ToolUse), l.isEmpty = true ↔ l = [] := by
    intro l; cases l <;> simp
  refine ⟨?_, ?_, ?_⟩
  · intro sr
    rw [loopIter_stop_iff _ st h, loopIter_stop_iff cfg st h]
    have hresp : ((withStopReason cfg (st.turnCount + 1) sr).responses
          (st.turnCount + 1)).content
        = (cfg.responses (st.turnCount + 1)).content := by
      simp [withStopReason]
    rw [hresp]
  · rw [loopIter_stop_iff cfg st h]
    exact hiff _
  · intro f hf hturn hne
    obtain ⟨k, rfl⟩ : ∃ k, f = k + 2 := ⟨f - 2, by omega⟩
    have hguard : st.turnCount < cfg.maxTurns := by omega
    have hstop : (loopIter cfg st).2 = false := by
      rw [loopIter_stop_iff cfg st h]
      rcases hl : (injectReadBeforeWriteBlocks
          (cfg.responses (st.turnCount + 1)).content).2 with _ | ⟨a, l⟩
      · exact absurd hl hne
      · rfl
    have h1 : (loopIter cfg st).1.sendCount = st.sendCount + 1 :=
      loopIter_sendCount_eq cfg st h
    have h1t : (loopIter cfg st).1.turnCount = st.turnCount + 1 :=
      loopIter_turnCount cfg st
    have h1ok : strictOk (loopIter cfg st).1.history = true :=
      loopIter_strictOk cfg st h
    show st.sendCount + 2 ≤ (runLoop cfg (k + 1 + 1) st).sendCount
    simp only [runLoop]
    rw [if_pos hguard, if_neg (by simp [hstop])]
    have hg2 : (loopIter cfg st).1.turnCount < cfg.maxTurns := by
      rw [h1t]; exact hturn
    rw [if_pos hg2]
    have h2 := loopIter_sendCount_eq cfg (loopIter cfg st).1 h1ok
    split
    · rw [h2, h1]
    · calc st.sendCount + 2
          = (loopIter cfg (loopIter cfg st).1).1.sendCount := by rw [h2, h1]
        _ ≤ _ := runLoop_sendCount_ge cfg k _

theorem loop_requery_and_stop_witness :
    strictOk c2st.history = true
    ∧ ((∀ sr, (loopIter (withStopReason c2cfg (c2st.turnCount + 1) sr) c2st).2
          = (loopIter c2cfg c2st).2)
       ∧ ((loopIter c2cfg c2st).2 = true
          ↔ (injectReadBeforeWriteBlocks
              (c2cfg.responses (c2st.turnCount + 1)).content).2 = [])
       ∧ (∀ f, 2 ≤ f → c2st.turnCount + 1 < c2cfg.maxTurns →
          (injectReadBeforeWriteBlocks
            (c2cfg.responses (c2st.turnCount + 1)).content).2 ≠ [] →
          c2st.sendCount + 2 ≤ (runLoop c2cfg f c2st).sendCount)) :=
  ⟨by decide, loop_requery_and_stop c2cfg c2st (by decide)⟩

theorem htmlRefsOf_sound (createdFiles : List String) (hp c : String)
    (r : MissingRef) (hr : r ∈ htmlRefsOf createdFiles hp c) :
    (r.tag = "script" ∨ r.tag = "link")
    ∧ createdFiles.contains (stripDotSlash r.file) = false
    ∧ createdFiles.contains r.file = false
    ∧ r.tag ≠ "import" := by
  simp only [htmlRefsOf, List.mem_append, List.mem_filterMap] at hr
  rcases hr with ⟨sp, hsp, hif⟩ | ⟨fl, hfl, hif⟩
  · split at hif
    · rename_i hcond
      simp only [Option.some.injEq] at hif
      subst hif
      rw [Bool.and_eq_true, Bool.not_eq_true', Bool.not_eq_true'] at hcond
      exact ⟨Or.inl rfl, hcond.1, hcond.2, by simp⟩
    · simp at hif
  · split at hif
    · split at hif
      · rename_i hcond
        simp only [Option.some.injEq] at hif
        subst hif
        rw [Bool.and_eq_true, Bool.not_eq_true', Bool.not_eq_true'] at hcond
        exact ⟨Or.inr rfl, hcond.1, hcond.2, by simp⟩
      · simp at hif
    · simp at hif

theorem importRefsOf_sound (createdFiles : List String) (fp c : String)
    (r : MissingRef) (hr : r ∈ importRefsOf createdFiles fp c) :
    r.tag = "import"
    ∧ startsWithStr r.file "." = true
    ∧ importResolved createdFiles r.file = false := by
  simp only [importRefsOf, List.mem_filterMap] at hr
  obtain ⟨ip, hip, hif⟩ := hr
  split at hif
  · simp at hif
  · split at hif
    · simp at hif
    · rename_i h1 h2
      simp only [Option.some.injEq] at hif
      subst hif
      refine ⟨rfl, ?_, ?_⟩
      · simpa using h1
      · simpa using h2

/-- C7 counterexample: `main.js` is created in turn 1 and is therefore in
the request-wide created set when turn 2 writes `index.html` referencing
it, yet the checker still flags the reference, because the call site passes
only the files created in the current turn. -/
theorem checker_request_wide_counterexample :
    "main.js" ∈ (processRequest c7cex "hi").filesCreated
    ∧ (processRequest c7cex "hi").missingLog
        = [[], [{ htmlFile := "index.html", tag := "script", attr := "src",
                  file := "main.js" }]] := by
  decide

/-- C7 (amended): every reference the checker flags indeed fails its
resolution — a flagged script/link reference is in the created set neither
literally nor with one leading `./` or `/` stripped (no extension, index or
src-root variants are tried for these), and a flagged import is relative
and fails `importResolved`, which tries the literal path, extension and
`index.*` variants and their `src/`-prefixed forms — but the created set
the turn loop passes is only the current turn's created files, not the
files created so far in the request. -/
theorem checker_per_turn_and_resolution (tus : List ToolUse)
    (createdFiles : List String) (results : List ToolResult) :
    (∀ r ∈ checkMissingFileReferences tus createdFiles results,
      ((r.tag = "script" ∨ r.tag = "link") →
        createdFiles.contains (stripDotSlash r.file) = false
        ∧ createdFiles.contains r.file = false)
      ∧ (r.tag = "import" →
        startsWithStr r.file "." = true
        ∧ importResolved createdFiles r.file = false))
    ∧ (∀ (cfg : AgentCfg) (st : St), cfg.dryRun = false →
        (execTurn cfg tus st).missingLog
          = st.missingLog
            ++ [checkMissingFileReferences tus
                (createdFilesOf (tus.map cfg.execTool))
                (tus.map cfg.execTool)]) := by
  constructor
  · intro r hr
    simp only [checkMissingFileReferences, List.mem_append] at hr
    rcases hr with hr | hr
    · rw [List.mem_flatten] at hr
      obtain ⟨l, hl, hrl⟩ := hr
      rw [List.mem_map] at hl
      obtain ⟨itu, _, rfl⟩ := hl
      repeat' split at hrl
      all_goals try (exact absurd hrl (by simp))
      have hs := htmlRefsOf_sound _ _ _ _ hrl
      exact ⟨fun _ => ⟨hs.2.1, hs.2.2.1⟩, fun himp => absurd himp hs.2.2.2⟩
    · rw [List.mem_flatten] at hr
      obtain ⟨l, hl, hrl⟩ := hr
      rw [List.mem_map] at hl
      obtain ⟨itu, _, rfl⟩ := hl
      repeat' split at hrl
      all_goals try (exact absurd hrl (by simp))
      have hs := importRefsOf_sound _ _ _ _ hrl
      refine ⟨fun hpre => ?_, fun _ => ⟨hs.2.1, hs.2.2⟩⟩
      rcases hpre with h | h <;> rw [hs.1] at h <;> simp at h
  · intro cfg st hdry
    simp only [execTurn]
    rw [if_neg (by simp [hdry])]
    have hres : (execToolsGo cfg tus
        { fileOps := st.fileOps, filesCreated := st.filesCreated,
          newOps := [], events := st.events
            ++ [Ev.phase StreamingPhase.codeWriting], results := [] }).results
        = tus.map cfg.execTool := by
      simpa using execToolsGo_results cfg tus _
    dsimp only
    rw [hres]

theorem checker_per_turn_witness :
    ((⟨"index.html", "script", "src", "main.js"⟩ : MissingRef)
        ∈ checkMissingFileReferences
            [wrTU "t2" "index.html" "<script src=\"main.js\"></script>"]
            ["index.html"]
            [echoExec (wrTU "t2" "index.html"
              "<script src=\"main.js\"></script>")])
    ∧ (["index.html"].contains (stripDotSlash "main.js") = false
        ∧ ["index.html"].contains "main.js" = false)
    ∧ c7cex.dryRun = false
    ∧ (execTurn c7cex
          [wrTU "t2" "index.html" "<script src=\"main.js\"></script>"]
          c2st).missingLog
        = c2st.missingLog
          ++ [checkMissingFileReferences
              [wrTU "t2" "index.html" "<script src=\"main.js\"></script>"]
              (createdFilesOf
                ([wrTU "t2" "index.html" "<script src=\"main.js\"></script>"].map
                  c7cex.execTool))
              ([wrTU "t2" "index.html" "<script src=\"main.js\"></script>"].map
                c7cex.execTool)] :=
  ⟨by decide,
   ((checker_per_turn_and_resolution
        [wrTU "t2" "index.html" "<script src=\"main.js\"></script>"]
        ["index.html"]
        [echoExec (wrTU "t2" "index.html"
          "<script src=\"main.js\"></script>")]).1
      ⟨"index.html", "script", "src", "main.js"⟩ (by decide)).1 (Or.inl rfl),
   by decide,
   (checker_per_turn_and_resolution
        [wrTU "t2" "index.html" "<script src=\"main.js\"></script>"]
        [] []).2 c7cex c2st (by decide)⟩

/-- C5 counterexample to the claimed phase order: a request whose first
model turn produces a tool invocation but no text emits neither the
`thinking` nor the `reasoning` phase, so the phases are not
thinking, reasoning, code-writing, ..., building, completed. -/
theorem agent_phase_order_counterexample :
    (injectReadBeforeWriteBlocks (c5cex.responses 1).content).2 ≠ []
    ∧ phasesOf (processRequest c5cex "hi").events
        = [StreamingPhase.codeWriting, StreamingPhase.building,
           StreamingPhase.completed]
    ∧ StreamingPhase.thinking ∉ phasesOf (processRequest c5cex "hi").events
    ∧ StreamingPhase.reasoning ∉ phasesOf (processRequest c5cex "hi").events := by
  decide

/-- C5 (amended): when every model turn streams non-empty text, the first
turn produces tool invocations, turns 1..k all produce tool invocations and
turn k+1 produces none with the ceiling not yet reached, the phases
delivered to `onPhase` are exactly thinking, reasoning, k times
code-writing, building, completed; and when the textual first turn produces
zero tool invocations the phases are exactly thinking, completed, with
reasoning skipped. -/
theorem agent_phase_order (cfg : AgentCfg) (u : String) (k : Nat) :
    (1 ≤ k → strictOk cfg.initialHistory = true →
      deltasOf (cfg.responses 1).content ≠ [] →
      (∀ n, 1 ≤ n → n ≤ k →
        (injectReadBeforeWriteBlocks (cfg.responses n).content).2 ≠ []) →
      deltasOf (cfg.responses (k + 1)).content ≠ [] →
      (injectReadBeforeWriteBlocks (cfg.responses (k + 1)).content).2 = [] →
      k + 1 ≤ cfg.maxTurns →
      phasesOf (processRequest cfg u).events
        = [StreamingPhase.thinking, StreamingPhase.reasoning]
          ++ List.replicate k StreamingPhase.codeWriting
          ++ [StreamingPhase.building, StreamingPhase.completed])
    ∧ (strictOk cfg.initialHistory = true →
      deltasOf (cfg.responses 1).content ≠ [] →
      (injectReadBeforeWriteBlocks (cfg.responses 1).content).2 = [] →
      1 ≤ cfg.maxTurns →
      phasesOf (processRequest cfg u).events
        = [StreamingPhase.thinking, StreamingPhase.completed]) :=
  ⟨fun hk hinit h1 h2 h3 h4 h5 =>
      processRequest_phases_tools cfg u k hk hinit h1 h2 h3 h4 h5,
   fun hinit h1 h2 h3 =>
      processRequest_phases_noTools cfg u hinit h1 h2 h3⟩

theorem agent_phase_order_witness :
    ((injectReadBeforeWriteBlocks (c5wit.responses 1).content).2 ≠ []
      ∧ phasesOf (processRequest c5wit "hi").events
          = [StreamingPhase.thinking, StreamingPhase.reasoning]
            ++ List.replicate 2 StreamingPhase.codeWriting
            ++ [StreamingPhase.building, StreamingPhase.completed])
    ∧ ((injectReadBeforeWriteBlocks (c5witNoTool.responses 1).content).2 = []
      ∧ phasesOf (processRequest c5witNoTool "hi").events
          = [StreamingPhase.thinking, StreamingPhase.completed]) :=
  ⟨⟨by decide,
    (agent_phase_order c5wit "hi" 2).1 (by decide) (by decide) (by decide)
      (fun n h1 h2 => by
        match n, h1, h2 with
        | 1, _, _ => decide
        | 2, _, _ => decide
        | 0, h1, _ => exact absurd h1 (by decide)
        | (m + 3), _, h2 => exact absurd h2 (by omega))
      (by decide) (by decide) (by decide)⟩,
   ⟨by decide,
    (agent_phase_order c5witNoTool "hi" 0).2 (by decide) (by decide)
      (by decide) (by decide)⟩⟩

/-- C8 counterexample: an executed `either-view` invocation carries a file
path, yet the run emits neither a file-operation event nor generic
tool-start/tool-end events for it (only write tools with fresh paths get
file-operation events, and path-bearing tools never get the generic
events). -/
theorem tool_events_counterexample :
    (∃ tu ∈ (injectReadBeforeWriteBlocks (c8cex.responses 1).content).2,
      validPath? tu.input ≠ none)
    ∧ (processRequest c8cex "hi").events.filter isToolProgressEv = [] := by
  decide

/-- C8 (amended): per executed tool invocation, the events appended around
the execution are exactly `fileOpEventsSpec`: a path-less invocation gets
generic tool-start/tool-end events; a write invocation with a truthy path
not yet operated on this request gets a starting file-operation event
(create vs. edit per the request-wide created set) before execution; any
invocation with a truthy path present in this turn's operation map gets a
finished event after execution; and the invocation's result is appended to
the turn's results. -/
theorem tool_events_per_invocation (cfg : AgentCfg) (es : ExecSt)
    (tu : ToolUse) :
    (execOne cfg es tu).events
      = es.events ++ (fileOpEventsSpec es tu).1 ++ (fileOpEventsSpec es tu).2
    ∧ (execOne cfg es tu).results = es.results ++ [cfg.execTool tu] := by
  refine ⟨?_, execOne_results cfg es tu⟩
  rcases hv : validPath? tu.input with _ | p
  · simp [execOne, fileOpEventsSpec, hv]
  · simp only [execOne, fileOpEventsSpec, hv]
    cases hw : isWriteTool tu.name <;> cases hc : es.fileOps.contains p <;>
      simp only [hw, hc, Bool.false_and, Bool.true_and, Bool.not_false,
        Bool.not_true, if_true, if_false, Bool.false_eq_true, ite_false,
        ite_true] <;>
      (cases hl : List.lookup p es.newOps <;> simp [hl])

end Eitherway
